import Mathlib

/-!
Shallow embedding of the Battleships repository (server.py, client.py,
battleship.py, crypto_utils.py) and proofs about its specification claims.

Modelling conventions, used throughout:

* Python byte strings are `List Nat` whose entries are < 256.
* Python `str` values are `List Char`; `.encode()` of the ASCII wire payloads
  is modelled by mapping each character to its code point.
* A raised Python exception is modelled by `Option` (`none` = some exception)
  or by `Except PyErr` when the exception class matters (`except ValueError`
  in battleship.py catches only `ValueError`, not `IndexError`).
* `int(s)` is modelled for the ASCII fragment: optional surrounding
  whitespace, an optional sign, then one or more ASCII decimal digits.
* The AES-CTR cipher of crypto_utils.py is out of the specification's scope
  ("treated as an opaque encrypt/decrypt pair"); its CTR structure is kept:
  a keystream function `ks : List Nat → Nat → Nat` gives the keystream byte
  at an index for a given 16-byte IV, and encryption XORs against it, so
  decryption with the same IV is the identity round trip exactly as in the
  source (`iv + ciphertext`, base64-encoded).
* `zlib.crc32` is implemented concretely (reflected CRC-32, polynomial
  0xEDB88320), matching Python's values.
-/

namespace Battleships

/-! ## Python string primitives -/

/-- ASCII whitespace characters stripped by Python's `str.strip()`. -/
def isWs (c : Char) : Bool :=
  c = ' ' || c = '\t' || c = '\n' || c = '\r' || c = '\x0b' || c = '\x0c'

/-- Model of Python `str.strip()`: drop whitespace from both ends. -/
def stripChars (cs : List Char) : List Char :=
  ((cs.dropWhile isWs).reverse.dropWhile isWs).reverse

/-- Model of `rfile.readline()` up to (excluding) the first newline; the
newline itself is immediately removed by the `.strip()` that follows it in
the source, so dropping it here is equivalent. -/
def takeLine (cs : List Char) : List Char := cs.takeWhile (fun c => c ≠ '\n')

/-- Model of Python `s.split(sep, 1)` for a one-character separator,
returning `none` when the separator does not occur (so that unpacking the
result raises, which the callers' bare `except` turns into a discard). -/
def splitOnceList (sep : Char) : List Char → Option (List Char × List Char)
  | [] => none
  | c :: rest =>
    if c = sep then some ([], rest)
    else (splitOnceList sep rest).map (fun p => (c :: p.1, p.2))

/-- Model of Python `s.rsplit(sep, 1)`: split at the last occurrence. -/
def rsplitOnceList (sep : Char) (cs : List Char) : Option (List Char × List Char) :=
  (splitOnceList sep cs.reverse).map (fun p => (p.2.reverse, p.1.reverse))

/-- Model of Python `s.split(sep)` (full split, for counting frame fields). -/
def splitAllList (sep : Char) : List Char → List (List Char)
  | [] => [[]]
  | c :: rest =>
    let r := splitAllList sep rest
    if c = sep then [] :: r
    else
      match r with
      | [] => [[c]]
      | h :: t => (c :: h) :: t

/-- ASCII decimal digit test. -/
def isDigitA (c : Char) : Bool := 48 ≤ c.toNat && c.toNat ≤ 57

/-- Value of a digit list, most significant first (accumulator form). -/
def decValAux (acc : Nat) (cs : List Char) : Nat :=
  cs.foldl (fun a c => a * 10 + (c.toNat - 48)) acc

/-- Value of a nonempty all-digit character list, `none` otherwise. -/
def digitsVal (cs : List Char) : Option Nat :=
  if cs.isEmpty then none
  else if cs.all isDigitA then some (decValAux 0 cs) else none

/-- First code points of the Unicode `Nd` (decimal digit) runs, Unicode
14.0 as in CPython's `unicodedata`: each run is ten consecutive code
points carrying the decimal values 0..9, and `int(str)` accepts every one
of them as a digit (`int("١٢") == 12`). -/
def ndStarts : List Nat :=
  [48, 1632, 1776, 1984, 2406, 2534, 2662, 2790, 2918, 3046, 3174, 3302,
   3430, 3558, 3664, 3792, 3872, 4160, 4240, 6112, 6160, 6470, 6608, 6784,
   6800, 6992, 7088, 7232, 7248, 42528, 43216, 43264, 43472, 43504, 43600,
   44016, 65296, 66720, 68912, 69734, 69872, 69942, 70096, 70384, 70736,
   70864, 71248, 71360, 71472, 71904, 72016, 72784, 73040, 73120, 92768,
   92864, 93008, 120782, 120792, 120802, 120812, 120822, 123200, 123632,
   125264, 130032]

/-- Decimal value of a code point under Python's digit lookup, `none` for
a non-digit. -/
def uniDigitVal (n : Nat) : Option Nat :=
  match ndStarts.find? (fun s => s ≤ n && n < s + 10) with
  | some s => some (n - s)
  | none => none

/-- Decimal-digit test as `int(str)` applies it (any Unicode `Nd` digit). -/
def isUniDigit (c : Char) : Bool := (uniDigitVal c.toNat).isSome

/-- No two adjacent underscores (part of the PEP 515 digit-group grammar). -/
def noDoubleUnderscore : List Char → Bool
  | c :: d :: t => !(c = '_' && d = '_') && noDoubleUnderscore (d :: t)
  | _ => true

/-- The digit-group grammar of `int(s)` after the optional sign: one or
more decimal digits, with single underscores allowed strictly between
digits (PEP 515: no leading, trailing, or doubled underscore). -/
def digitGroupOk (cs : List Char) : Bool :=
  match cs with
  | [] => false
  | c :: _ =>
    isUniDigit c &&
    (match cs.getLast? with
     | some d => isUniDigit d
     | none => false) &&
    cs.all (fun x => isUniDigit x || x = '_') &&
    noDoubleUnderscore cs

/-- Value of a digit group: fold over the digit values, skipping the
underscores (which carry no value). -/
def uniValAux (acc : Nat) (cs : List Char) : Nat :=
  cs.foldl (fun a c =>
    match uniDigitVal c.toNat with
    | some v => a * 10 + v
    | none => a) acc

/-- Value of a well-formed digit group, `none` otherwise. -/
def pyDigitsVal (cs : List Char) : Option Nat :=
  if digitGroupOk cs then some (uniValAux 0 cs) else none

/-- Sign-and-digits part of `int(s)` after stripping. -/
def pyIntSigned : List Char → Option Int
  | [] => none
  | c :: rest =>
    if c = '+' then (pyDigitsVal rest).map (fun n => (n : Int))
    else if c = '-' then (pyDigitsVal rest).map (fun n => -(n : Int))
    else (pyDigitsVal (c :: rest)).map (fun n => (n : Int))

/-- Model of Python `int(s)`: strip whitespace, allow one optional sign,
then require a digit group — one or more Unicode decimal digits with
optional single underscores between them. -/
def pyIntL (cs : List Char) : Option Int :=
  pyIntSigned (stripChars cs)

/-- Python `str.upper()` on the ASCII fragment. -/
def pyUpperChar (c : Char) : Char :=
  if 97 ≤ c.toNat ∧ c.toNat ≤ 122 then Char.ofNat (c.toNat - 32) else c

/-- Python `str.lower()` on the ASCII fragment. -/
def pyLowerChar (c : Char) : Char :=
  if 65 ≤ c.toNat ∧ c.toNat ≤ 90 then Char.ofNat (c.toNat + 32) else c

/-- Decimal representation of a natural number (digit characters,
most significant first), as produced by Python's f-string formatting.
The first argument is structural fuel (`n + 1` always suffices) so that
the function evaluates by kernel reduction. -/
def natToDecAux : Nat → Nat → List Char → List Char
  | 0, _, acc => acc
  | fuel + 1, n, acc =>
    if n < 10 then Char.ofNat (48 + n) :: acc
    else natToDecAux fuel (n / 10) (Char.ofNat (48 + n % 10) :: acc)

def natToDec (n : Nat) : List Char := natToDecAux (n + 1) n []

/-! ## CRC-32 (zlib.crc32) -/

def crcPoly : Nat := 0xEDB88320

def crcStep (c : Nat) : Nat :=
  if c % 2 = 1 then (c / 2) ^^^ crcPoly else c / 2

def crcSteps : Nat → Nat → Nat
  | 0, c => c
  | k + 1, c => crcSteps k (crcStep c)

def crc32Update (c b : Nat) : Nat := crcSteps 8 (c ^^^ b)

/-- `zlib.crc32(bs)` on a byte string. -/
def crc32 (bs : List Nat) : Nat :=
  (bs.foldl crc32Update 0xFFFFFFFF) ^^^ 0xFFFFFFFF

/-- The client masks its checksum with `& 0xFFFFFFFF`; masking a 32-bit value
with `0xFFFFFFFF` is reduction modulo `2^32`. -/
def crc32Masked (bs : List Nat) : Nat := crc32 bs % 4294967296

/-- UTF-8 encoding of the ASCII wire strings: each char to its code point. -/
def strBytes (cs : List Char) : List Nat := cs.map Char.toNat

/-! ## Base64 (base64.b64encode / b64decode as used by crypto_utils) -/

def b64chr (v : Nat) : Char :=
  if v < 26 then Char.ofNat (65 + v)
  else if v < 52 then Char.ofNat (97 + (v - 26))
  else if v < 62 then Char.ofNat (48 + (v - 52))
  else if v = 62 then '+' else '/'

def b64val (c : Char) : Option Nat :=
  if 65 ≤ c.toNat ∧ c.toNat ≤ 90 then some (c.toNat - 65)
  else if 97 ≤ c.toNat ∧ c.toNat ≤ 122 then some (c.toNat - 97 + 26)
  else if 48 ≤ c.toNat ∧ c.toNat ≤ 57 then some (c.toNat - 48 + 52)
  else if c = '+' then some 62
  else if c = '/' then some 63
  else none

/-- Characters `base64.b64decode` keeps: alphabet characters and padding.
All others are discarded before the length check. -/
def b64keep (c : Char) : Bool := (b64val c).isSome || c = '='

/-- `base64.b64encode`, producing the character list of the token. -/
def b64encodeChars : List Nat → List Char
  | [] => []
  | [b1] => [b64chr (b1 / 4), b64chr (b1 % 4 * 16), '=', '=']
  | [b1, b2] =>
    [b64chr (b1 / 4), b64chr (b1 % 4 * 16 + b2 / 16), b64chr (b2 % 16 * 4), '=']
  | b1 :: b2 :: b3 :: rest =>
    b64chr (b1 / 4) :: b64chr (b1 % 4 * 16 + b2 / 16) ::
      b64chr (b2 % 16 * 4 + b3 / 64) :: b64chr (b3 % 64) :: b64encodeChars rest

/-- Decoding of an already-filtered character list, four characters per
quantum, padding allowed only in the last quantum; any other shape (in
particular a length that is not a multiple of four) raises, i.e. `none`. -/
def b64decodeKept : List Char → Option (List Nat)
  | [] => some []
  | c1 :: c2 :: c3 :: c4 :: rest =>
    if c3 = '=' ∧ c4 = '=' ∧ rest = [] then
      match b64val c1, b64val c2 with
      | some v1, some v2 => some [v1 * 4 + v2 / 16]
      | _, _ => none
    else if c4 = '=' ∧ rest = [] then
      match b64val c1, b64val c2, b64val c3 with
      | some v1, some v2, some v3 => some [v1 * 4 + v2 / 16, v2 % 16 * 16 + v3 / 4]
      | _, _, _ => none
    else
      match b64val c1, b64val c2, b64val c3, b64val c4, b64decodeKept rest with
      | some v1, some v2, some v3, some v4, some bs =>
        some ((v1 * 4 + v2 / 16) :: (v2 % 16 * 16 + v3 / 4) :: (v3 % 4 * 64 + v4) :: bs)
      | _, _, _, _, _ => none
  | _ => none

/-! ## crypto_utils.py -/

/-- Abstract AES-CTR keystream: byte `i` of the keystream derived from a
16-byte IV. The specification treats the cipher as an opaque pair, so every
theorem quantifies over `ks`. -/
def KS : Type := List Nat → Nat → Nat

/-- XOR of a byte string with the keystream, starting at index `i`
(`cipher.encrypt` / `cipher.decrypt` in CTR mode). -/
def ctrXorFrom (ks : KS) (iv : List Nat) : Nat → List Nat → List Nat
  | _, [] => []
  | i, b :: rest => (b ^^^ ks iv i % 256) :: ctrXorFrom ks iv (i + 1) rest

def ctrXor (ks : KS) (iv : List Nat) (data : List Nat) : List Nat :=
  ctrXorFrom ks iv 0 data

/-- `encrypt_message`: base64 of IV plus ciphertext (the IV is drawn at
random in the source and is an explicit argument here). -/
def encrypt_message (ks : KS) (iv : List Nat) (msg : List Nat) : List Char :=
  b64encodeChars (iv ++ ctrXor ks iv msg)

/-- The re-padding step of `decrypt_message`
(`data += '=' * (4 - missing_padding)`). -/
def b64pad (data : List Char) : List Char :=
  if data.length % 4 = 0 then data
  else data ++ List.replicate (4 - data.length % 4) '='

/-- `decrypt_message`: re-pad to a multiple of four, base64-decode
(discarding non-alphabet characters first, erroring if the kept length is
not a multiple of four), split off the 16-byte IV, XOR the rest.
The result is the plaintext byte string. -/
def decrypt_message (ks : KS) (data : List Char) : Option (List Nat) :=
  match b64decodeKept ((b64pad data).filter b64keep) with
  | none => none
  | some raw => some (ctrXor ks (raw.take 16) (raw.drop 16))

/-! ## Wire frames: client.py handle_user_input and server.py send/recv -/

/-- The frame built by `handle_user_input` for sequence number `seqNum` and
plaintext `msg`: `f"{seq_num}|{encrypted_message}"` followed by `"|"` and
the CRC-32 (masked with `0xFFFFFFFF`) of that prefix. -/
def client_frame (ks : KS) (iv : List Nat) (seqNum : Nat) (msg : List Nat) : List Char :=
  (natToDec seqNum ++ '|' :: encrypt_message ks iv msg) ++
    '|' :: natToDec (crc32Masked (strBytes (natToDec seqNum ++ '|' :: encrypt_message ks iv msg)))

/-- The same frame with character `i` of the checksum field replaced by `c`
(a single-character corruption of the checksum field). -/
def client_frame_tampered (ks : KS) (iv : List Nat) (seqNum : Nat) (msg : List Nat)
    (i : Nat) (c : Char) : List Char :=
  (natToDec seqNum ++ '|' :: encrypt_message ks iv msg) ++
    '|' :: (natToDec (crc32Masked
      (strBytes (natToDec seqNum ++ '|' :: encrypt_message ks iv msg)))).set i c

/-- The line payload written by the server's `send_with_checksum`:
`f"{encrypted_message}|{checksum}"` where the checksum is the CRC-32 of the
token alone — note: no sequence-number field. -/
def send_with_checksum (ks : KS) (iv : List Nat) (msg : List Nat) : List Char :=
  encrypt_message ks iv msg ++
    '|' :: natToDec (crc32 (strBytes (encrypt_message ks iv msg)))

/-- The server's `recv_with_checksum` applied to an incoming stream:
read one line, strip it, `rsplit('|', 1)` off the checksum, compare
`int(checksum)` with the CRC-32 of the rest, `split('|', 1)` off the
sequence number, `int` it, and decrypt the remainder; every raised
exception is swallowed by the bare `except` and yields `none`. -/
def recv_with_checksum (ks : KS) (stream : List Char) : Option (Int × List Nat) :=
  match rsplitOnceList '|' (stripChars (takeLine stream)) with
  | none => none
  | some (msgSeq, recvCk) =>
    match pyIntL recvCk with
    | none => none
    | some ck =>
      if ck ≠ (crc32 (strBytes msgSeq) : Int) then none
      else
        match splitOnceList '|' msgSeq with
        | none => none
        | some (seqStr, encData) =>
          match pyIntL seqStr with
          | none => none
          | some seqv =>
            match decrypt_message ks encData with
            | none => none
            | some pt => some (seqv, pt)

/-! ## Python dynamic values: the lobby's username extraction -/

inductive PyErr
  | valueError
  | indexError
  | attributeError
deriving DecidableEq, Repr

/-- Just enough of Python's dynamic values to model
`seq, username = recv_with_checksum(rfile).strip()`. -/
inductive PyVal
  | vNone
  | vInt (n : Int)
  | vBytes (bs : List Nat)
  | vStr (s : List Char)
  | vPair (a b : PyVal)
deriving DecidableEq, Repr

/-- The Python value returned by `recv_with_checksum`: `None`, or the tuple
`(seq, plaintext)`. -/
def recvResultVal : Option (Int × List Nat) → PyVal
  | none => PyVal.vNone
  | some (n, pt) => PyVal.vPair (PyVal.vInt n) (PyVal.vStr (pt.map Char.ofNat))

/-- Attribute lookup `.strip()`: only `str` has it; on a tuple or on `None`
it raises `AttributeError`. -/
def pyStripMethod : PyVal → Except PyErr PyVal
  | PyVal.vStr s => Except.ok (PyVal.vStr (stripChars s))
  | _ => Except.error PyErr.attributeError

/-- The username-extraction step of `lobby_manager`
(`seq, username = recv_with_checksum(rfile).strip()`, server.py line 249):
call `.strip()` on whatever `recv_with_checksum` returned. -/
def lobbyReadUsername (ks : KS) (stream : List Char) : Except PyErr PyVal :=
  pyStripMethod (recvResultVal (recv_with_checksum ks stream))

/-! ## Lobby admission duplicate check (server.py lines 253-257) -/

/-- The rejection condition of `lobby_manager`: `lobbyNames` are the
usernames in the waiting queue (`entry[3]`), `active` maps each username in
`active_players` to its `still_active` flag. The requested name is rejected
when it is taken in the lobby, or when it is an active player's name AND
every active player is still connected. -/
def admissionRejected (lobbyNames : List (List Char))
    (active : List (List Char × Bool)) (username : List Char) : Bool :=
  (lobbyNames.any (fun e => username = e)) ||
    ((active.any (fun p => p.1 = username)) && (active.all (fun p => p.2)))

/-! ## battleship.py: boards and firing -/

inductive Cell
  | water
  | ship
  | hitc
  | missc
deriving DecidableEq, Repr

/-- Python list indexing `l[i]` for an `int` index: valid for
`-len(l) <= i < len(l)` (negative indices wrap), `IndexError` otherwise.
This returns the normalised non-negative index. -/
def pyNorm (len : Nat) (i : Int) : Option Nat :=
  if 0 ≤ i ∧ i < (len : Int) then some i.toNat
  else if i < 0 ∧ 0 ≤ i + (len : Int) then some (i + (len : Int)).toNat
  else none

/-- `grid[row][col]` with Python index semantics. -/
def pyGet2 (g : List (List Cell)) (row col : Int) : Option Cell :=
  match pyNorm g.length row with
  | none => none
  | some r =>
    match g.get? r with
    | none => none
    | some rowl =>
      match pyNorm rowl.length col with
      | none => none
      | some k => rowl.get? k

/-- `grid[row][col] = v` with Python index semantics. -/
def pySet2 (g : List (List Cell)) (row col : Int) (v : Cell) :
    Option (List (List Cell)) :=
  match pyNorm g.length row with
  | none => none
  | some r =>
    match g.get? r with
    | none => none
    | some rowl =>
      match pyNorm rowl.length col with
      | none => none
      | some k => some (g.set r (rowl.set k v))

structure Board where
  size : Nat
  hidden : List (List Cell)
  display : List (List Cell)
  ships : List (List Char × List (Int × Int))
deriving DecidableEq, Repr

inductive FireRes
  | hitR
  | missR
  | alreadyR
deriving DecidableEq, Repr

/-- `Board._mark_hit_and_check_sunk`: walk `placed_ships`, remove the raw
`(row, col)` pair from the first ship whose position set contains it, and
report the ship's name when its set becomes empty; stop after that ship. -/
def markHitAndCheckSunk (row col : Int) :
    List (List Char × List (Int × Int)) →
      Option (List Char) × List (List Char × List (Int × Int))
  | [] => (none, [])
  | (name, pos) :: rest =>
    if (row, col) ∈ pos then
      let pos2 := pos.erase (row, col)
      if pos2.length = 0 then (some name, (name, pos2) :: rest)
      else (none, (name, pos2) :: rest)
    else
      let r := markHitAndCheckSunk row col rest
      (r.1, (name, pos) :: r.2)

/-- `Board.fire_at`: read the hidden cell (raising `IndexError`, i.e.
`none`, when the indices are out of Python range), then mark hit/miss on
both grids, or report `already_shot` without touching anything. -/
def Board.fire_at (b : Board) (row col : Int) :
    Option (FireRes × Option (List Char) × Board) :=
  match pyGet2 b.hidden row col with
  | none => none
  | some cell =>
    if cell = Cell.ship then
      match pySet2 b.hidden row col Cell.hitc, pySet2 b.display row col Cell.hitc with
      | some h2, some d2 =>
        let ms := markHitAndCheckSunk row col b.ships
        some (FireRes.hitR, ms.1, { b with hidden := h2, display := d2, ships := ms.2 })
      | _, _ => none
    else if cell = Cell.water then
      match pySet2 b.hidden row col Cell.missc, pySet2 b.display row col Cell.missc with
      | some h2, some d2 =>
        some (FireRes.missR, none, { b with hidden := h2, display := d2 })
      | _, _ => none
    else
      some (FireRes.alreadyR, none, b)

/-- `Board.all_ships_sunk`. -/
def Board.all_ships_sunk (b : Board) : Bool :=
  b.ships.all (fun s => s.2.length = 0)

/-- `parse_coordinate`: strip and upper-case, take the first character as
the row (`IndexError` on an empty string), `int` the rest minus one as the
column (`ValueError` when `int` fails). No range validation. -/
def parse_coordinate (s : List Char) : Except PyErr (Int × Int) :=
  let cs := (stripChars s).map pyUpperChar
  match cs with
  | [] => Except.error PyErr.indexError
  | rowLetter :: colDigits =>
    match pyIntL colDigits with
    | none => Except.error PyErr.valueError
    | some colv => Except.ok ((rowLetter.toNat : Int) - 65, colv - 1)

/-! ## battleship.py: run_two_player_game_online -/

/-- The mutable state of one match: the two global boards, the index of the
current player, and the two move counters (`moves[0]`, `moves[1]`). -/
structure GState where
  board1 : Board
  board2 : Board
  current : Nat
  m1 : Nat
  m2 : Nat
deriving DecidableEq, Repr

/-- The dictionary passed to `save_state_callback`:
`{'board1': board1, 'board2': board2, 'turn': 1 - current,
'moves': {'Player 1': moves[0], 'Player 2': moves[1]}}`. -/
structure Snapshot where
  sb1 : Board
  sb2 : Board
  sturn : Nat
  sm1 : Nat
  sm2 : Nat
deriving DecidableEq, Repr

/-- `p["board"]`: player 0 fires at board2, player 1 fires at board1. -/
def targetBoard (st : GState) : Board :=
  if st.current = 0 then st.board2 else st.board1

def setTargetBoard (st : GState) (b : Board) : GState :=
  if st.current = 0 then { st with board2 := b } else { st with board1 := b }

/-- `moves[current] += 1`. -/
def bumpMoves (st : GState) : GState :=
  if st.current = 0 then { st with m1 := st.m1 + 1 } else { st with m2 := st.m2 + 1 }

/-- How one pass of the inner input loop ends. `retry…` outcomes are the
`continue` paths (same player re-prompted), `timeoutTurn`/`missTurn`/
`hitTurn` are the `break` paths (turn over), `quitMatch`/`winMatch` are the
`return` paths, and `crashed` is an exception not caught by the
`except ValueError` handler. -/
inductive InnerOut
  | timeoutTurn
  | retryEmpty
  | retryParse
  | retryAlready
  | quitMatch
  | winMatch
  | missTurn
  | hitTurn
  | crashed (e : PyErr)
deriving DecidableEq, Repr

/-- One pass of the inner loop of `run_two_player_game_online` on the value
returned by `timed_input` (`none` = timeout). Mirrors the source order:
timeout check, empty-input check, quit check, `parse_coordinate` (only
`ValueError` is caught), `fire_at` (an `IndexError` there is uncaught),
`moves[current] += 1`, then the result dispatch. -/
def processInput (st : GState) (inp : Option (List Char)) : GState × InnerOut :=
  match inp with
  | none => (st, InnerOut.timeoutTurn)
  | some guess =>
    if guess = [] then (st, InnerOut.retryEmpty)
    else if guess.map pyLowerChar = "quit".data then (st, InnerOut.quitMatch)
    else
      match parse_coordinate guess with
      | Except.error PyErr.valueError => (st, InnerOut.retryParse)
      | Except.error e => (st, InnerOut.crashed e)
      | Except.ok rc =>
        match (targetBoard st).fire_at rc.1 rc.2 with
        | none => (st, InnerOut.crashed PyErr.indexError)
        | some fr =>
          let st1 := bumpMoves (setTargetBoard st fr.2.2)
          match fr.1 with
          | FireRes.hitR =>
            if fr.2.2.all_ships_sunk then (st1, InnerOut.winMatch)
            else (st1, InnerOut.hitTurn)
          | FireRes.missR => (st1, InnerOut.missTurn)
          | FireRes.alreadyR => (st1, InnerOut.retryAlready)

inductive EndKind
  | quitForfeit
  | allSunk
deriving DecidableEq, Repr

/-- The snapshot taken at the end of a non-terminating turn: the current
global boards, the turn index already flipped, and both move counters. -/
def snapshotOf (st : GState) : Snapshot :=
  ⟨st.board1, st.board2, st.current, st.m1, st.m2⟩

def flipCurrent (st : GState) : GState := { st with current := 1 - st.current }

/-- Result of one iteration of the outer loop: a completed turn (with the
snapshot passed to `save_state_callback` and the state as the next turn
begins), a match end (quit or win — no snapshot is saved), an uncaught
exception, or exhaustion of the modelled input sequence. -/
inductive OuterRes
  | turnDone (st : GState) (snap : Snapshot)
  | ended (k : EndKind) (st : GState)
  | crashedGame (e : PyErr) (st : GState)
  | starved (st : GState)
deriving DecidableEq, Repr

/-- One iteration of the outer loop of `run_two_player_game_online`: run the
inner loop over the pending inputs; on `break` build `game_data`, call the
save callback, and flip `current`; on `return` stop without saving. -/
def outerStep (st : GState) : List (Option (List Char)) → OuterRes
  | [] => OuterRes.starved st
  | inp :: rest =>
    match processInput st inp with
    | (st1, InnerOut.retryEmpty) => outerStep st1 rest
    | (st1, InnerOut.retryParse) => outerStep st1 rest
    | (st1, InnerOut.retryAlready) => outerStep st1 rest
    | (st1, InnerOut.timeoutTurn) =>
      OuterRes.turnDone (flipCurrent st1) (snapshotOf (flipCurrent st1))
    | (st1, InnerOut.missTurn) =>
      OuterRes.turnDone (flipCurrent st1) (snapshotOf (flipCurrent st1))
    | (st1, InnerOut.hitTurn) =>
      OuterRes.turnDone (flipCurrent st1) (snapshotOf (flipCurrent st1))
    | (st1, InnerOut.quitMatch) => OuterRes.ended EndKind.quitForfeit st1
    | (st1, InnerOut.winMatch) => OuterRes.ended EndKind.allSunk st1
    | (st1, InnerOut.crashed e) => OuterRes.crashedGame e st1

/-- The snapshots handed to `save_state_callback` by one outer iteration. -/
def savesOf : OuterRes → List Snapshot
  | OuterRes.turnDone _ snap => [snap]
  | _ => []

/-- Initial state of `run_two_player_game_online`: restored field-by-field
from `initial_state` when given, else the two freshly placed boards with
`current = 0` and `moves = [0, 0]`. -/
def gameInit (initial : Option Snapshot) (fresh1 fresh2 : Board) : GState :=
  match initial with
  | some s => ⟨s.sb1, s.sb2, s.sturn, s.sm1, s.sm2⟩
  | none => ⟨fresh1, fresh2, 0, 0, 0⟩

/-! ## server.py handle_clients: the disconnect / reconnect handler -/

/-- The I/O stream pairs that a resumed game can be wired to: the two
original connections' streams, or the reconnecting client's fresh ones. -/
inductive StreamEnd
  | oldP1
  | oldP2
  | freshConn
deriving DecidableEq, Repr

/-- Externally visible actions of the `except` block of `handle_clients`. -/
inductive DEvent
  | resumeRun (io1 io2 : StreamEnd) (initial : Option Snapshot)
  | defaultWinToOpponent
  | discardBookkeeping
deriving DecidableEq, Repr

/-- The `except`/`finally` flow of `handle_clients` after a connection
fault, sequentialised: `reconnectAt = some t` means the poll loop observes
`still_active` again at its `t`-th one-second check (the flag is set by the
reconnecting client's `lobby_manager` thread), `none` means it never does
within the window. On a reconnect observed before the 60 checks run out the
handler reruns the game from the saved snapshot over the ORIGINAL streams
(`(rfile1, wfile1)` / `(rfile2, wfile2)`), breaks out of the loop, and then
unconditionally falls through to the default-win notification; `finally`
discards the per-identity bookkeeping only when no resume happened. -/
def handleDisconnectExcept (disconnectedIsP1 : Bool) (reconnectAt : Option Nat)
    (savedSnap : Option Snapshot) : List DEvent :=
  match reconnectAt with
  | some t =>
    if t < 60 then
      (if disconnectedIsP1 then
        [DEvent.resumeRun StreamEnd.oldP1 StreamEnd.oldP2 savedSnap]
      else
        [DEvent.resumeRun StreamEnd.oldP2 StreamEnd.oldP1 savedSnap]) ++
        [DEvent.defaultWinToOpponent]
    else [DEvent.defaultWinToOpponent, DEvent.discardBookkeeping]
  | none => [DEvent.defaultWinToOpponent, DEvent.discardBookkeeping]

/-! ## Character facts -/

theorem char_eq_of_toNat {c d : Char} (h : c.toNat = d.toNat) : c = d := by
  have h1 : Char.ofNat c.toNat = Char.ofNat d.toNat := congrArg Char.ofNat h
  rwa [Char.ofNat_toNat, Char.ofNat_toNat] at h1

theorem isDigitA_toNat {c : Char} (h : isDigitA c = true) :
    48 ≤ c.toNat ∧ c.toNat ≤ 57 := by
  simp only [isDigitA, Bool.and_eq_true, decide_eq_true_eq] at h
  exact h

theorem isWs_toNat {c : Char} (h : isWs c = true) :
    c.toNat = 32 ∨ c.toNat = 9 ∨ c.toNat = 10 ∨ c.toNat = 13 ∨
      c.toNat = 11 ∨ c.toNat = 12 := by
  simp only [isWs, Bool.or_eq_true, decide_eq_true_eq] at h
  rcases h with ((((h | h) | h) | h) | h) | h <;> subst h <;> simp

theorem not_ws_of_digit {c : Char} (h : isDigitA c = true) : isWs c = false := by
  cases hw : isWs c with
  | false => rfl
  | true =>
    exact absurd (isDigitA_toNat h) (by rcases isWs_toNat hw with h1|h1|h1|h1|h1|h1 <;> omega)

theorem digit_ne_bar {c : Char} (h : isDigitA c = true) : c ≠ '|' := by
  intro he
  subst he
  exact absurd (isDigitA_toNat h) (by simp)

theorem digit_ne_nl {c : Char} (h : isDigitA c = true) : c ≠ '\n' := by
  intro he
  subst he
  exact absurd (isDigitA_toNat h) (by simp)

theorem digit_ne_plus {c : Char} (h : isDigitA c = true) : c ≠ '+' := by
  intro he
  subst he
  exact absurd (isDigitA_toNat h) (by simp)

theorem digit_ne_minus {c : Char} (h : isDigitA c = true) : c ≠ '-' := by
  intro he
  subst he
  exact absurd (isDigitA_toNat h) (by simp)

theorem ws_not_digit {c : Char} (h : isWs c = true) : isDigitA c = false := by
  cases hd : isDigitA c with
  | false => rfl
  | true =>
    exact absurd (isDigitA_toNat hd) (by rcases isWs_toNat h with h1|h1|h1|h1|h1|h1 <;> omega)

theorem ws_ne_bar {c : Char} (h : isWs c = true) : c ≠ '|' := by
  intro he
  subst he
  simp [isWs] at h

theorem ws_ne_plus {c : Char} (h : isWs c = true) : c ≠ '+' := by
  intro he
  subst he
  simp [isWs] at h

theorem ws_ne_minus {c : Char} (h : isWs c = true) : c ≠ '-' := by
  intro he
  subst he
  simp [isWs] at h

/-! ## strip / takeLine / split lemmas -/

theorem dropWhile_eq_self_of_head {cs : List Char}
    (h : ∀ c, cs.head? = some c → isWs c = false) : cs.dropWhile isWs = cs := by
  cases cs with
  | nil => rfl
  | cons c rest =>
    have hc := h c rfl
    simp [List.dropWhile, hc]

theorem stripChars_eq_self {cs : List Char}
    (h1 : ∀ c, cs.head? = some c → isWs c = false)
    (h2 : ∀ c, cs.getLast? = some c → isWs c = false) : stripChars cs = cs := by
  unfold stripChars
  rw [dropWhile_eq_self_of_head h1]
  rw [dropWhile_eq_self_of_head (by intro c hc; exact h2 c (by rwa [List.head?_reverse] at hc))]
  exact List.reverse_reverse cs

theorem stripChars_eq_of_all {cs : List Char}
    (h : ∀ c ∈ cs, isWs c = false) : stripChars cs = cs :=
  stripChars_eq_self
    (fun c hc => h c (by cases cs with | nil => simp at hc | cons a t => simp at hc; simp [hc]))
    (fun c hc => h c (List.mem_of_mem_getLast? hc))

theorem stripChars_drop_last_ws {core : List Char} {w : Char}
    (hw : isWs w = true) (hne : core ≠ [])
    (h1 : ∀ c, core.head? = some c → isWs c = false)
    (h2 : ∀ c, core.getLast? = some c → isWs c = false) :
    stripChars (core ++ [w]) = core := by
  unfold stripChars
  have hd1 : (core ++ [w]).dropWhile isWs = core ++ [w] := by
    apply dropWhile_eq_self_of_head
    intro c hc
    cases core with
    | nil => exact absurd rfl hne
    | cons a t =>
      have : a = c := by simpa using hc
      exact this ▸ h1 a rfl
  rw [hd1, List.reverse_append]
  have hrw : ([w].reverse ++ core.reverse) = w :: core.reverse := by simp
  rw [hrw, List.dropWhile_cons_of_pos hw]
  have hd2 : core.reverse.dropWhile isWs = core.reverse := by
    apply dropWhile_eq_self_of_head
    intro c hc
    rw [List.head?_reverse] at hc
    exact h2 c hc
  rw [hd2, List.reverse_reverse]

theorem takeLine_append_nl {cs rest : List Char}
    (h : ∀ c ∈ cs, c ≠ '\n') : takeLine (cs ++ '\n' :: rest) = cs := by
  induction cs with
  | nil => simp [takeLine]
  | cons a t ih =>
    have ha := h a (by simp)
    simp only [List.cons_append, takeLine, List.takeWhile_cons]
    rw [if_pos (by simpa using ha)]
    have := ih (fun c hc => h c (by simp [hc]))
    simp only [takeLine] at this
    rw [this]

theorem takeLine_eq_self {cs : List Char} (h : ∀ c ∈ cs, c ≠ '\n') :
    takeLine cs = cs := by
  induction cs with
  | nil => rfl
  | cons a t ih =>
    have ha := h a (by simp)
    simp only [takeLine, List.takeWhile_cons]
    rw [if_pos (by simpa using ha)]
    have := ih (fun c hc => h c (by simp [hc]))
    simp only [takeLine] at this
    rw [this]

theorem splitOnce_append {sep : Char} {xs ys : List Char} (h : sep ∉ xs) :
    splitOnceList sep (xs ++ sep :: ys) = some (xs, ys) := by
  induction xs with
  | nil => simp [splitOnceList]
  | cons a t ih =>
    have ha : a ≠ sep := fun he => h (by simp [he])
    simp only [List.cons_append, splitOnceList, List.append_eq]
    rw [if_neg ha, ih (fun hm => h (by simp [hm]))]
    rfl

theorem rsplitOnce_append {sep : Char} {xs ys : List Char} (h : sep ∉ ys) :
    rsplitOnceList sep (xs ++ sep :: ys) = some (xs, ys) := by
  unfold rsplitOnceList
  rw [List.reverse_append, List.reverse_cons, List.append_assoc, List.singleton_append]
  rw [splitOnce_append (by simpa using h)]
  simp

theorem splitAll_no_sep {sep : Char} {cs : List Char} (h : sep ∉ cs) :
    splitAllList sep cs = [cs] := by
  induction cs with
  | nil => rfl
  | cons a t ih =>
    have ha : a ≠ sep := fun he => h (by simp [he])
    simp only [splitAllList]
    rw [if_neg ha, ih (fun hm => h (by simp [hm]))]

theorem splitAll_append {sep : Char} {xs ys : List Char} (h : sep ∉ xs) :
    splitAllList sep (xs ++ sep :: ys) = xs :: splitAllList sep ys := by
  induction xs with
  | nil => simp [splitAllList]
  | cons a t ih =>
    have ha : a ≠ sep := fun he => h (by simp [he])
    simp only [List.cons_append, splitAllList, List.append_eq]
    rw [if_neg ha, ih (fun hm => h (by simp [hm]))]

/-! ## Decimal representation lemmas -/

theorem decValAux_nil (a : Nat) : decValAux a [] = a := rfl

theorem decValAux_cons (a : Nat) (c : Char) (t : List Char) :
    decValAux a (c :: t) = decValAux (a * 10 + (c.toNat - 48)) t := rfl

theorem decValAux_append (a : Nat) (xs ys : List Char) :
    decValAux a (xs ++ ys) = decValAux (decValAux a xs) ys :=
  List.foldl_append _ _ _ _

theorem decValAux_lt {xs : List Char} (a : Nat) (h : ∀ c ∈ xs, isDigitA c = true) :
    decValAux a xs < (a + 1) * 10 ^ xs.length := by
  induction xs generalizing a with
  | nil => simp [decValAux_nil]
  | cons c t ih =>
    have hc := isDigitA_toNat (h c (by simp))
    have ht := ih (a := a * 10 + (c.toNat - 48)) (fun d hd => h d (by simp [hd]))
    rw [decValAux_cons, List.length_cons]
    calc decValAux (a * 10 + (c.toNat - 48)) t
        < (a * 10 + (c.toNat - 48) + 1) * 10 ^ t.length := ht
      _ ≤ ((a + 1) * 10) * 10 ^ t.length := Nat.mul_le_mul_right _ (by omega)
      _ = (a + 1) * 10 ^ (t.length + 1) := by ring

theorem decValAux_ge (a : Nat) (xs : List Char) :
    a * 10 ^ xs.length ≤ decValAux a xs := by
  induction xs generalizing a with
  | nil => simp [decValAux_nil]
  | cons c t ih =>
    rw [decValAux_cons, List.length_cons]
    calc a * 10 ^ (t.length + 1) = a * 10 * 10 ^ t.length := by ring
      _ ≤ (a * 10 + (c.toNat - 48)) * 10 ^ t.length := Nat.mul_le_mul_right _ (by omega)
      _ ≤ decValAux (a * 10 + (c.toNat - 48)) t := ih _

theorem decValAux_inj {xs ys : List Char} (a b : Nat)
    (hx : ∀ c ∈ xs, isDigitA c = true) (hy : ∀ c ∈ ys, isDigitA c = true)
    (hl : xs.length = ys.length) (hv : decValAux a xs = decValAux b ys) :
    a = b ∧ xs = ys := by
  induction xs generalizing ys a b with
  | nil =>
    cases ys with
    | nil => exact ⟨by simpa [decValAux_nil] using hv, rfl⟩
    | cons d u => simp at hl
  | cons c t ih =>
    cases ys with
    | nil => simp at hl
    | cons d u =>
      simp only [List.length_cons] at hl
      have hdig_c := isDigitA_toNat (hx c (by simp))
      have hdig_d := isDigitA_toNat (hy d (by simp))
      rw [decValAux_cons, decValAux_cons] at hv
      obtain ⟨hab, htu⟩ := ih (a := a * 10 + (c.toNat - 48)) (b := b * 10 + (d.toNat - 48))
        (fun e he => hx e (by simp [he])) (fun e he => hy e (by simp [he]))
        (by omega) hv
      have hcd : a = b ∧ c.toNat - 48 = d.toNat - 48 := by omega
      have hce : c = d := char_eq_of_toNat (by omega)
      exact ⟨hcd.1, by rw [htu, hce]⟩

theorem digit_char_facts : ∀ m < 10, isDigitA (Char.ofNat (48 + m)) = true ∧
    (Char.ofNat (48 + m)).toNat = 48 + m := by decide

theorem natToDecAux_fuel_eq (n : Nat) : ∀ {f1 f2 : Nat} (acc : List Char),
    n < f1 → n < f2 → natToDecAux f1 n acc = natToDecAux f2 n acc := by
  induction n using Nat.strong_induction_on with
  | _ n ih =>
    intro f1 f2 acc h1 h2
    cases f1 with
    | zero => omega
    | succ g1 =>
      cases f2 with
      | zero => omega
      | succ g2 =>
        simp only [natToDecAux]
        by_cases h10 : n < 10
        · rw [if_pos h10, if_pos h10]
        · rw [if_neg h10, if_neg h10]
          exact ih (n / 10) (Nat.div_lt_self (by omega) (by omega)) _
            (by omega) (by omega)

theorem natToDecAux_acc (n : Nat) : ∀ (fuel : Nat) (acc : List Char), n < fuel →
    natToDecAux fuel n acc = natToDecAux fuel n [] ++ acc := by
  induction n using Nat.strong_induction_on with
  | _ n ih =>
    intro fuel acc hf
    cases fuel with
    | zero => omega
    | succ g =>
      simp only [natToDecAux]
      by_cases h10 : n < 10
      · rw [if_pos h10, if_pos h10]
        simp
      · rw [if_neg h10, if_neg h10]
        have hdl : n / 10 < n := Nat.div_lt_self (by omega) (by omega)
        have hg : n / 10 < g := by omega
        rw [ih (n / 10) hdl g (Char.ofNat (48 + n % 10) :: acc) hg,
            ih (n / 10) hdl g [Char.ofNat (48 + n % 10)] hg]
        simp

theorem natToDec_small {n : Nat} (h : n < 10) : natToDec n = [Char.ofNat (48 + n)] := by
  unfold natToDec
  simp only [natToDecAux]
  rw [if_pos h]

theorem natToDec_step {n : Nat} (h : ¬ n < 10) :
    natToDec n = natToDec (n / 10) ++ [Char.ofNat (48 + n % 10)] := by
  have hdl : n / 10 < n := Nat.div_lt_self (by omega) (by omega)
  show natToDecAux (n + 1) n [] = _
  simp only [natToDecAux]
  rw [if_neg h]
  rw [natToDecAux_fuel_eq (n / 10) (Char.ofNat (48 + n % 10) :: [])
    (by omega) (Nat.lt_succ_self _)]
  exact natToDecAux_acc (n / 10) (n / 10 + 1) _ (Nat.lt_succ_self _)

theorem natToDec_ne_nil (n : Nat) : natToDec n ≠ [] := by
  by_cases h : n < 10
  · rw [natToDec_small h]; simp
  · rw [natToDec_step h]; simp

theorem natToDec_all_digits (n : Nat) : ∀ c ∈ natToDec n, isDigitA c = true := by
  induction n using Nat.strong_induction_on with
  | _ n ih =>
    by_cases h : n < 10
    · rw [natToDec_small h]
      intro c hc
      rw [List.mem_singleton] at hc
      subst hc
      exact (digit_char_facts n h).1
    · rw [natToDec_step h]
      intro c hc
      rcases List.mem_append.mp hc with hc | hc
      · exact ih (n / 10) (Nat.div_lt_self (by omega) (by omega)) c hc
      · rw [List.mem_singleton] at hc
        subst hc
        exact (digit_char_facts (n % 10) (Nat.mod_lt _ (by omega))).1

theorem decValAux_natToDec (n : Nat) :
    ∀ a, decValAux a (natToDec n) = a * 10 ^ (natToDec n).length + n := by
  induction n using Nat.strong_induction_on with
  | _ n ih =>
    intro a
    by_cases h : n < 10
    · rw [natToDec_small h]
      rw [decValAux_cons, decValAux_nil]
      have := (digit_char_facts n h).2
      simp only [List.length_singleton]
      omega
    · rw [natToDec_step h]
      have hlt : n / 10 < n := Nat.div_lt_self (by omega) (by omega)
      rw [decValAux_append, ih (n / 10) hlt a, decValAux_cons, decValAux_nil]
      have hm := (digit_char_facts (n % 10) (Nat.mod_lt _ (by omega))).2
      rw [List.length_append, List.length_singleton]
      have : n = 10 * (n / 10) + n % 10 := (Nat.div_add_mod n 10).symm
      rw [hm]
      ring_nf
      omega

theorem digitsVal_natToDec (n : Nat) : digitsVal (natToDec n) = some n := by
  unfold digitsVal
  rw [if_neg (by simpa [List.isEmpty_iff] using natToDec_ne_nil n)]
  rw [if_pos (by rw [List.all_eq_true]; exact fun c hc => natToDec_all_digits n c hc)]
  rw [decValAux_natToDec n 0]
  simp

theorem natToDec_val_lt (n : Nat) : n < 10 ^ (natToDec n).length := by
  have h := @decValAux_lt (natToDec n) 0 (natToDec_all_digits n)
  rw [decValAux_natToDec n 0] at h
  simpa using h

theorem natToDec_lower {n : Nat} (h : 1 ≤ n) :
    10 ^ ((natToDec n).length - 1) ≤ n := by
  induction n using Nat.strong_induction_on with
  | _ n ih =>
    by_cases h10 : n < 10
    · rw [natToDec_small h10]
      simpa using h
    · rw [natToDec_step h10]
      have hlt : n / 10 < n := Nat.div_lt_self (by omega) (by omega)
      have hd : 1 ≤ n / 10 := by omega
      have := ih (n / 10) hlt hd
      have hne := natToDec_ne_nil (n / 10)
      have hlen : 1 ≤ (natToDec (n / 10)).length := List.length_pos.mpr hne
      rw [List.length_append, List.length_singleton]
      have h2 : 10 ^ ((natToDec (n / 10)).length + 1 - 1)
          = 10 * 10 ^ ((natToDec (n / 10)).length - 1) := by
        rw [Nat.add_sub_cancel]
        rw [← pow_succ']
        congr 1
        omega
      rw [h2]
      omega

theorem natToDec_len2_ge {n : Nat} (h : 2 ≤ (natToDec n).length) : 10 ≤ n := by
  by_contra hlt
  rw [natToDec_small (by omega)] at h
  simp at h

/-- A nonempty all-digit list strictly shorter than the decimal
representation of `v` has value less than `v`. -/
theorem sub_digit_lt {R : List Char} {v : Nat} (hne : R ≠ [])
    (hdig : ∀ c ∈ R, isDigitA c = true)
    (hlen : R.length < (natToDec v).length) : decValAux 0 R < v := by
  have hR1 : 1 ≤ R.length := List.length_pos.mpr hne
  have hL2 : 2 ≤ (natToDec v).length := by omega
  have hv10 : 10 ≤ v := natToDec_len2_ge hL2
  have hlow : 10 ^ ((natToDec v).length - 1) ≤ v := natToDec_lower (by omega)
  have hvalR : decValAux 0 R < 10 ^ R.length := by
    have := @decValAux_lt R 0 hdig
    simpa using this
  have hpow : 10 ^ R.length ≤ 10 ^ ((natToDec v).length - 1) :=
    Nat.pow_le_pow_right (by omega) (by omega)
  omega

/-! ## Digit-table facts -/

theorem uniDigit_mem_start {n v : Nat} (h : uniDigitVal n = some v) :
    ∃ s ∈ ndStarts, s ≤ n ∧ n < s + 10 ∧ v = n - s := by
  unfold uniDigitVal at h
  cases hf : ndStarts.find? (fun s => s ≤ n && n < s + 10) with
  | none => rw [hf] at h; exact absurd h (by simp)
  | some s =>
    rw [hf] at h
    have hm := List.mem_of_find?_eq_some hf
    have hp := List.find?_some hf
    simp only [Bool.and_eq_true, decide_eq_true_eq] at hp
    simp only [Option.some.injEq] at h
    exact ⟨s, hm, hp.1, hp.2, h.symm⟩

theorem uniDigit_ge48 {n v : Nat} (h : uniDigitVal n = some v) : 48 ≤ n := by
  obtain ⟨s, hs, h1, -, -⟩ := uniDigit_mem_start h
  have hall : ∀ s ∈ ndStarts, 48 ≤ s := by decide
  have := hall s hs
  omega

theorem uniDigit_lt10 {n v : Nat} (h : uniDigitVal n = some v) : v < 10 := by
  obtain ⟨s, -, h1, h2, h3⟩ := uniDigit_mem_start h
  omega

theorem uniDigitVal_ascii {c : Char} (h : isDigitA c = true) :
    uniDigitVal c.toNat = some (c.toNat - 48) := by
  have hn := isDigitA_toNat h
  unfold uniDigitVal ndStarts
  rw [List.find?_cons_of_pos _ (by
    simp only [Bool.and_eq_true, decide_eq_true_eq]
    omega)]

theorem isUniDigit_of_ascii {c : Char} (h : isDigitA c = true) :
    isUniDigit c = true := by
  unfold isUniDigit
  rw [uniDigitVal_ascii h]
  rfl

theorem uniDigit_not_ws {c : Char} (h : isUniDigit c = true) : isWs c = false := by
  unfold isUniDigit at h
  obtain ⟨v, hv⟩ := Option.isSome_iff_exists.mp h
  have h48 := uniDigit_ge48 hv
  cases hw : isWs c
  · rfl
  · have := isWs_toNat hw
    omega

theorem ws_not_uniDigit {c : Char} (h : isWs c = true) : isUniDigit c = false := by
  cases hd : isUniDigit c
  · rfl
  · rw [uniDigit_not_ws hd] at h
    exact absurd h (by simp)

theorem uniDigit_ne_bar {c : Char} (h : isUniDigit c = true) : c ≠ '|' := by
  intro he
  rw [he] at h
  exact absurd h (by decide)

theorem uniDigit_ne_nl {c : Char} (h : isUniDigit c = true) : c ≠ '\n' := by
  intro he
  rw [he] at h
  exact absurd h (by decide)

theorem uniDigit_ne_plus {c : Char} (h : isUniDigit c = true) : c ≠ '+' := by
  intro he
  rw [he] at h
  exact absurd h (by decide)

theorem uniDigit_ne_minus {c : Char} (h : isUniDigit c = true) : c ≠ '-' := by
  intro he
  rw [he] at h
  exact absurd h (by decide)

theorem uniDigit_ne_underscore {c : Char} (h : isUniDigit c = true) : c ≠ '_' := by
  intro he
  rw [he] at h
  exact absurd h (by decide)

theorem digit_ne_underscore {c : Char} (h : isDigitA c = true) : c ≠ '_' := by
  intro he
  rw [he] at h
  exact absurd h (by decide)

theorem ws_ne_underscore {c : Char} (h : isWs c = true) : c ≠ '_' := by
  intro he
  rw [he] at h
  exact absurd h (by decide)

/-! ## Digit-group value lemmas -/

theorem uniValAux_nil (a : Nat) : uniValAux a [] = a := rfl

theorem uniValAux_cons (a : Nat) (c : Char) (t : List Char) :
    uniValAux a (c :: t)
      = uniValAux (match uniDigitVal c.toNat with
          | some v => a * 10 + v
          | none => a) t := rfl

theorem uniValAux_append (a : Nat) (xs ys : List Char) :
    uniValAux a (xs ++ ys) = uniValAux (uniValAux a xs) ys :=
  List.foldl_append _ _ _ _

theorem uniValAux_ascii {cs : List Char} (h : ∀ c ∈ cs, isDigitA c = true) :
    ∀ a, uniValAux a cs = decValAux a cs := by
  induction cs with
  | nil => intro a; rfl
  | cons c t ih =>
    intro a
    rw [uniValAux_cons, decValAux_cons, uniDigitVal_ascii (h c (by simp))]
    exact ih (fun d hd => h d (by simp [hd])) _

theorem noDouble_of_no_underscore : ∀ (cs : List Char),
    (∀ x ∈ cs, x ≠ '_') → noDoubleUnderscore cs = true
  | [], _ => rfl
  | [_], _ => rfl
  | c :: d :: t, h => by
    have hrest := noDouble_of_no_underscore (d :: t)
      (fun x hx => h x (List.mem_cons_of_mem _ hx))
    have hc := h c (by simp)
    unfold noDoubleUnderscore
    rw [hrest]
    simp [hc]

theorem noDouble_single {ys : List Char} (hy : ∀ y ∈ ys, y ≠ '_') :
    ∀ (xs : List Char), (∀ x ∈ xs, x ≠ '_') →
    noDoubleUnderscore (xs ++ '_' :: ys) = true := by
  intro xs
  induction xs with
  | nil =>
    intro _
    cases ys with
    | nil => rfl
    | cons y t =>
      have h := hy y (by simp)
      simp only [List.nil_append]
      unfold noDoubleUnderscore
      rw [noDouble_of_no_underscore (y :: t) hy]
      simp [h]
  | cons c xs ih =>
    intro hx
    have hc := hx c (by simp)
    cases xs with
    | nil =>
      simp only [List.cons_append, List.nil_append]
      unfold noDoubleUnderscore
      rw [show noDoubleUnderscore ('_' :: ys) = true from by simpa using ih (by simp)]
      simp [hc]
    | cons d t =>
      simp only [List.cons_append]
      unfold noDoubleUnderscore
      rw [show noDoubleUnderscore (d :: (t ++ '_' :: ys)) = true from by
        have := ih (fun x hxm => hx x (List.mem_cons_of_mem _ hxm))
        simpa using this]
      simp [hc]

theorem digitGroupOk_of_digits {cs : List Char} (hne : cs ≠ [])
    (hdig : ∀ c ∈ cs, isUniDigit c = true) : digitGroupOk cs = true := by
  cases cs with
  | nil => exact absurd rfl hne
  | cons c t =>
    obtain ⟨d, hd⟩ := Option.isSome_iff_exists.mp
      (List.getLast?_isSome.mpr (show c :: t ≠ [] by simp))
    unfold digitGroupOk
    simp only [Bool.and_eq_true]
    refine ⟨⟨⟨hdig c (by simp), ?_⟩, ?_⟩, ?_⟩
    · simp only [hd]
      exact hdig d (List.mem_of_mem_getLast? hd)
    · rw [List.all_eq_true]
      intro x hx
      simp [hdig x hx]
    · exact noDouble_of_no_underscore _
        (fun x hx => uniDigit_ne_underscore (hdig x hx))

theorem digitGroupOk_head_false {c : Char} {t : List Char}
    (h : isUniDigit c = false) : digitGroupOk (c :: t) = false := by
  simp only [digitGroupOk]
  rw [h]
  rfl

theorem digitGroupOk_last_false {cs : List Char} {d : Char}
    (hlast : cs.getLast? = some d) (h : isUniDigit d = false) :
    digitGroupOk cs = false := by
  cases cs with
  | nil => rfl
  | cons c t =>
    unfold digitGroupOk
    simp only [hlast, h]
    simp

theorem decValAux_acc_lt {ys : List Char} (hdig : ∀ x ∈ ys, isDigitA x = true)
    {a b : Nat} (hab : a < b) : decValAux a ys < decValAux b ys :=
  calc decValAux a ys < (a + 1) * 10 ^ ys.length := decValAux_lt a hdig
    _ ≤ b * 10 ^ ys.length := Nat.mul_le_mul_right _ (by omega)
    _ ≤ decValAux b ys := decValAux_ge b ys

theorem decValAux_acc_inj {ys : List Char} (hdig : ∀ x ∈ ys, isDigitA x = true)
    {a b : Nat} (hab : a ≠ b) : decValAux a ys ≠ decValAux b ys := by
  rcases Nat.lt_or_ge a b with h | h
  · exact Nat.ne_of_lt (decValAux_acc_lt hdig h)
  · exact (Nat.ne_of_lt (decValAux_acc_lt hdig (by omega))).symm

/-- Substituting a digit of a DIFFERENT value changes the value of an
all-ASCII-digit string. -/
theorem set_digit_val_ne {D : List Char} {i : Nat} (hi : i < D.length)
    (hdig : ∀ x ∈ D, isDigitA x = true) {c : Char} {v : Nat}
    (hv : uniDigitVal c.toNat = some v) (hvne : v ≠ D[i].toNat - 48) :
    uniValAux 0 (D.set i c) ≠ decValAux 0 D := by
  have hsplit : D.set i c = D.take i ++ c :: D.drop (i + 1) := by
    rw [List.set_eq_take_append_cons_drop, if_pos hi]
  have hDeq : D = D.take i ++ D[i] :: D.drop (i + 1) := by
    conv_lhs => rw [← List.take_append_drop i D]
    rw [List.drop_eq_getElem_cons hi]
  have htk : ∀ x ∈ D.take i, isDigitA x = true :=
    fun x hx => hdig x (List.mem_of_mem_take hx)
  have hdr : ∀ x ∈ D.drop (i + 1), isDigitA x = true :=
    fun x hx => hdig x (List.mem_of_mem_drop hx)
  rw [hsplit, uniValAux_append, uniValAux_cons, hv]
  show uniValAux (uniValAux 0 (D.take i) * 10 + v) (D.drop (i + 1)) ≠ _
  rw [uniValAux_ascii hdr, uniValAux_ascii htk]
  conv_rhs => rw [hDeq]
  rw [decValAux_append, decValAux_cons]
  exact decValAux_acc_inj hdr (by
    have hdi := isDigitA_toNat (hdig _ (List.getElem_mem hi))
    omega)

/-! ## pyIntL lemmas -/

theorem pyIntL_nil : pyIntL [] = none := rfl

theorem pyIntL_uniDigits {cs : List Char} (hne : cs ≠ [])
    (hdig : ∀ c ∈ cs, isUniDigit c = true) :
    pyIntL cs = some ((uniValAux 0 cs : Nat) : Int) := by
  unfold pyIntL
  rw [stripChars_eq_of_all (fun c hc => uniDigit_not_ws (hdig c hc))]
  cases cs with
  | nil => exact absurd rfl hne
  | cons c rest =>
    have hc := hdig c (by simp)
    simp only [pyIntSigned]
    rw [if_neg (uniDigit_ne_plus hc), if_neg (uniDigit_ne_minus hc)]
    unfold pyDigitsVal
    rw [if_pos (digitGroupOk_of_digits (by simp) hdig)]
    rfl

theorem pyIntL_all_digits {cs : List Char} (hne : cs ≠ [])
    (hdig : ∀ c ∈ cs, isDigitA c = true) :
    pyIntL cs = some ((decValAux 0 cs : Nat) : Int) := by
  rw [pyIntL_uniDigits hne (fun c hc => isUniDigit_of_ascii (hdig c hc)),
    uniValAux_ascii hdig 0]

theorem pyIntL_natToDec (n : Nat) : pyIntL (natToDec n) = some (n : Int) := by
  rw [pyIntL_all_digits (natToDec_ne_nil n) (natToDec_all_digits n)]
  rw [decValAux_natToDec n 0]
  simp

theorem pyDigitsVal_of_digits {cs : List Char} (hne : cs ≠ [])
    (hdig : ∀ c ∈ cs, isDigitA c = true) :
    pyDigitsVal cs = some (decValAux 0 cs) := by
  unfold pyDigitsVal
  rw [if_pos (digitGroupOk_of_digits hne
      (fun c hc => isUniDigit_of_ascii (hdig c hc))),
    uniValAux_ascii hdig 0]

theorem pyIntL_plus {rest : List Char} (hdig : ∀ c ∈ rest, isDigitA c = true) :
    pyIntL ('+' :: rest) = (pyDigitsVal rest).map (fun n => (n : Int)) := by
  unfold pyIntL
  rw [stripChars_eq_of_all (by
    intro c hc
    rcases List.mem_cons.mp hc with hc | hc
    · subst hc; rfl
    · exact not_ws_of_digit (hdig c hc))]
  simp [pyIntSigned]

theorem pyIntL_minus {rest : List Char} (hdig : ∀ c ∈ rest, isDigitA c = true) :
    pyIntL ('-' :: rest) = (pyDigitsVal rest).map (fun n => -(n : Int)) := by
  unfold pyIntL
  rw [stripChars_eq_of_all (by
    intro c hc
    rcases List.mem_cons.mp hc with hc | hc
    · subst hc; rfl
    · exact not_ws_of_digit (hdig c hc))]
  simp [pyIntSigned]

theorem pyIntL_ws_lead {w : Char} {rest : List Char} (hw : isWs w = true)
    (hne : rest ≠ []) (hdig : ∀ c ∈ rest, isDigitA c = true) :
    pyIntL (w :: rest) = some ((decValAux 0 rest : Nat) : Int) := by
  unfold pyIntL
  have hs : stripChars (w :: rest) = rest := by
    have h1 : stripChars (w :: rest) = stripChars rest := by
      unfold stripChars
      rw [List.dropWhile_cons_of_pos hw]
    rw [h1, stripChars_eq_of_all (fun c hc => not_ws_of_digit (hdig c hc))]
  rw [hs]
  cases rest with
  | nil => exact absurd rfl hne
  | cons c t =>
    have hc := hdig c (by simp)
    simp only [pyIntSigned]
    rw [if_neg (digit_ne_plus hc), if_neg (digit_ne_minus hc)]
    unfold pyDigitsVal
    rw [if_pos (digitGroupOk_of_digits (by simp)
        (fun x hx => isUniDigit_of_ascii (hdig x hx))),
      uniValAux_ascii hdig 0]
    rfl

/-- A stripped string starting with no sign whose digit group is rejected
by the grammar parses to `None`. -/
theorem pyIntL_none_of_groupFail {cs : List Char} {c0 : Char} {rest : List Char}
    (h0 : stripChars cs = cs) (hc : cs = c0 :: rest)
    (hp : c0 ≠ '+') (hm : c0 ≠ '-')
    (hg : digitGroupOk cs = false) : pyIntL cs = none := by
  subst hc
  unfold pyIntL
  rw [h0]
  simp only [pyIntSigned]
  rw [if_neg hp, if_neg hm]
  unfold pyDigitsVal
  rw [if_neg (by rw [hg]; simp)]
  rfl

/-- A stripped string starting with no sign and containing a character
that is neither a decimal digit nor an underscore parses to `None`. -/
theorem pyIntL_none_of_bad {cs : List Char} {c0 : Char} {rest : List Char} {x : Char}
    (h0 : stripChars cs = cs) (hc : cs = c0 :: rest)
    (hp : c0 ≠ '+') (hm : c0 ≠ '-')
    (hx : x ∈ cs) (hxd : isUniDigit x = false) (hxu : x ≠ '_') :
    pyIntL cs = none := by
  refine pyIntL_none_of_groupFail h0 hc hp hm ?_
  cases hok : digitGroupOk cs
  · rfl
  · exfalso
    subst hc
    unfold digitGroupOk at hok
    simp only [Bool.and_eq_true, List.all_eq_true] at hok
    have hxx := hok.1.2 x hx
    rw [hxd] at hxx
    simp only [Bool.false_or, decide_eq_true_eq] at hxx
    exact hxu hxx

/-! ## CRC-32 bound -/

theorem char_toNat_lt_two32 (c : Char) : c.toNat < 4294967296 := by
  have h := c.val.toNat_lt
  simp only [Char.toNat]
  omega

theorem crcStep_lt {c : Nat} (h : c < 4294967296) : crcStep c < 4294967296 := by
  unfold crcStep
  split
  · have h1 : c / 2 < 2 ^ 32 := by omega
    have h2 : crcPoly < 2 ^ 32 := by norm_num [crcPoly]
    have := Nat.xor_lt_two_pow h1 h2
    omega
  · omega

theorem crcSteps_lt {k c : Nat} (h : c < 4294967296) : crcSteps k c < 4294967296 := by
  induction k generalizing c with
  | zero => exact h
  | succ k ih => exact ih (crcStep_lt h)

theorem crc32Update_lt {c b : Nat} (hc : c < 4294967296) (hb : b < 4294967296) :
    crc32Update c b < 4294967296 := by
  unfold crc32Update
  have h1 : c < 2 ^ 32 := by omega
  have h2 : b < 2 ^ 32 := by omega
  have := Nat.xor_lt_two_pow h1 h2
  exact crcSteps_lt (by omega)

theorem crc32_lt {bs : List Nat} (h : ∀ b ∈ bs, b < 4294967296) :
    crc32 bs < 4294967296 := by
  unfold crc32
  have hfold : ∀ (l : List Nat) (acc : Nat), (∀ b ∈ l, b < 4294967296) →
      acc < 4294967296 → l.foldl crc32Update acc < 4294967296 := by
    intro l
    induction l with
    | nil => intro acc _ ha; simpa using ha
    | cons b t ih =>
      intro acc hl ha
      simp only [List.foldl_cons]
      exact ih _ (fun x hx => hl x (by simp [hx])) (crc32Update_lt ha (hl b (by simp)))
  have h1 := hfold bs 0xFFFFFFFF h (by norm_num)
  have h2 : (0xFFFFFFFF : Nat) < 2 ^ 32 := by norm_num
  have := Nat.xor_lt_two_pow (show bs.foldl crc32Update 0xFFFFFFFF < 2 ^ 32 by omega) h2
  omega

theorem crc32_strBytes_lt (cs : List Char) : crc32 (strBytes cs) < 4294967296 := by
  apply crc32_lt
  intro b hb
  unfold strBytes at hb
  rcases List.mem_map.mp hb with ⟨c, _, rfl⟩
  exact char_toNat_lt_two32 c

theorem crc32Masked_strBytes (cs : List Char) :
    crc32Masked (strBytes cs) = crc32 (strBytes cs) :=
  Nat.mod_eq_of_lt (crc32_strBytes_lt cs)

/-! ## Base64 lemmas -/

theorem b64chr_facts : ∀ v < 64, b64val (b64chr v) = some v ∧
    b64keep (b64chr v) = true ∧ b64chr v ≠ '=' ∧ b64chr v ≠ '|' ∧
    b64chr v ≠ '\n' ∧ isWs (b64chr v) = false := by decide

theorem eq_char_facts : b64keep '=' = true ∧ ('=' : Char) ≠ '|' ∧
    ('=' : Char) ≠ '\n' ∧ isWs '=' = false := by decide

theorem b64keep_digit {c : Char} (h : isDigitA c = true) : b64keep c = true := by
  have hb := isDigitA_toNat h
  unfold b64keep b64val
  rw [if_neg (by omega), if_neg (by omega), if_pos (by omega)]
  simp

theorem b64keep_bar_false : b64keep '|' = false := by decide

theorem mem_b64encodeChars (bs : List Nat) (h : ∀ b ∈ bs, b < 256) :
    ∀ c ∈ b64encodeChars bs, (∃ v, v < 64 ∧ c = b64chr v) ∨ c = '=' := by
  match bs with
  | [] => intro c hc; simp [b64encodeChars] at hc
  | [b1] =>
    have h1 := h b1 (by simp)
    intro c hc
    simp only [b64encodeChars, List.mem_cons, List.not_mem_nil, or_false] at hc
    rcases hc with hc | hc | hc | hc
    · exact Or.inl ⟨b1 / 4, by omega, hc⟩
    · exact Or.inl ⟨b1 % 4 * 16, by omega, hc⟩
    · exact Or.inr hc
    · exact Or.inr hc
  | [b1, b2] =>
    have h1 := h b1 (by simp)
    have h2 := h b2 (by simp)
    intro c hc
    simp only [b64encodeChars, List.mem_cons, List.not_mem_nil, or_false] at hc
    rcases hc with hc | hc | hc | hc
    · exact Or.inl ⟨b1 / 4, by omega, hc⟩
    · exact Or.inl ⟨b1 % 4 * 16 + b2 / 16, by omega, hc⟩
    · exact Or.inl ⟨b2 % 16 * 4, by omega, hc⟩
    · exact Or.inr hc
  | b1 :: b2 :: b3 :: rest =>
    have h1 := h b1 (by simp)
    have h2 := h b2 (by simp)
    have h3 := h b3 (by simp)
    have ih := mem_b64encodeChars rest (fun b hb => h b (by simp [hb]))
    intro c hc
    simp only [b64encodeChars, List.mem_cons] at hc
    rcases hc with hc | hc | hc | hc | hc
    · exact Or.inl ⟨b1 / 4, by omega, hc⟩
    · exact Or.inl ⟨b1 % 4 * 16 + b2 / 16, by omega, hc⟩
    · exact Or.inl ⟨b2 % 16 * 4 + b3 / 64, by omega, hc⟩
    · exact Or.inl ⟨b3 % 64, by omega, hc⟩
    · exact ih c hc

theorem b64encodeChars_len_mod (bs : List Nat) : (b64encodeChars bs).length % 4 = 0 := by
  match bs with
  | [] => rfl
  | [b1] => simp [b64encodeChars]
  | [b1, b2] => simp [b64encodeChars]
  | b1 :: b2 :: b3 :: rest =>
    have ih := b64encodeChars_len_mod rest
    simp only [b64encodeChars, List.length_cons]
    omega

theorem b64decodeKept_encode (bs : List Nat) (h : ∀ b ∈ bs, b < 256) :
    b64decodeKept (b64encodeChars bs) = some bs := by
  match bs with
  | [] => rfl
  | [b1] =>
    have h1 := h b1 (by simp)
    simp only [b64encodeChars, b64decodeKept]
    rw [if_pos (by simp)]
    rw [(b64chr_facts (b1 / 4) (by omega)).1, (b64chr_facts (b1 % 4 * 16) (by omega)).1]
    simp only [Option.some.injEq, List.cons.injEq, and_true]
    omega
  | [b1, b2] =>
    have h1 := h b1 (by simp)
    have h2 := h b2 (by simp)
    simp only [b64encodeChars, b64decodeKept]
    rw [if_neg (by
      rintro ⟨h3, -⟩
      exact (b64chr_facts (b2 % 16 * 4) (by omega)).2.2.1 h3)]
    rw [if_pos (by simp)]
    rw [(b64chr_facts (b1 / 4) (by omega)).1,
        (b64chr_facts (b1 % 4 * 16 + b2 / 16) (by omega)).1,
        (b64chr_facts (b2 % 16 * 4) (by omega)).1]
    simp only [Option.some.injEq, List.cons.injEq, and_true]
    omega
  | b1 :: b2 :: b3 :: rest =>
    have h1 := h b1 (by simp)
    have h2 := h b2 (by simp)
    have h3 := h b3 (by simp)
    have ih := b64decodeKept_encode rest (fun b hb => h b (by simp [hb]))
    simp only [b64encodeChars, b64decodeKept]
    rw [if_neg (by
      rintro ⟨-, h4, -⟩
      exact (b64chr_facts (b3 % 64) (by omega)).2.2.1 h4)]
    rw [if_neg (by
      rintro ⟨h4, -⟩
      exact (b64chr_facts (b3 % 64) (by omega)).2.2.1 h4)]
    rw [(b64chr_facts (b1 / 4) (by omega)).1,
        (b64chr_facts (b1 % 4 * 16 + b2 / 16) (by omega)).1,
        (b64chr_facts (b2 % 16 * 4 + b3 / 64) (by omega)).1,
        (b64chr_facts (b3 % 64) (by omega)).1, ih]
    simp only [Option.some.injEq, List.cons.injEq, and_true]
    omega

theorem filter_b64encode {bs : List Nat} (h : ∀ b ∈ bs, b < 256) :
    (b64encodeChars bs).filter b64keep = b64encodeChars bs := by
  rw [List.filter_eq_self]
  intro c hc
  rcases mem_b64encodeChars bs h c hc with ⟨v, hv, rfl⟩ | rfl
  · exact (b64chr_facts v hv).2.1
  · exact eq_char_facts.1

theorem b64decodeKept_none_mod (cs : List Char) (h : cs.length % 4 ≠ 0) :
    b64decodeKept cs = none := by
  match cs with
  | [] => simp at h
  | [c] => rfl
  | [c1, c2] => rfl
  | [c1, c2, c3] => rfl
  | c1 :: c2 :: c3 :: c4 :: rest =>
    have hr : rest.length % 4 ≠ 0 := by
      simp only [List.length_cons] at h
      omega
    have hrne : rest ≠ [] := by
      intro he
      subst he
      simp at hr
    have ih := b64decodeKept_none_mod rest hr
    simp only [b64decodeKept]
    rw [if_neg (by rintro ⟨-, -, h3⟩; exact hrne h3),
        if_neg (by rintro ⟨-, h4⟩; exact hrne h4), ih]
    cases b64val c1 <;> cases b64val c2 <;> cases b64val c3 <;> cases b64val c4 <;> rfl

/-! ## ctrXor lemmas -/

theorem ctrXorFrom_invol (ks : KS) (iv : List Nat) :
    ∀ (i : Nat) (data : List Nat),
      ctrXorFrom ks iv i (ctrXorFrom ks iv i data) = data := by
  intro i data
  induction data generalizing i with
  | nil => rfl
  | cons b t ih =>
    simp only [ctrXorFrom]
    rw [ih (i + 1)]
    rw [Nat.xor_assoc, Nat.xor_self, Nat.xor_zero]

theorem ctrXor_invol (ks : KS) (iv : List Nat) (data : List Nat) :
    ctrXor ks iv (ctrXor ks iv data) = data :=
  ctrXorFrom_invol ks iv 0 data

theorem ctrXorFrom_lt (ks : KS) (iv : List Nat) :
    ∀ (i : Nat) (data : List Nat), (∀ b ∈ data, b < 256) →
      ∀ b ∈ ctrXorFrom ks iv i data, b < 256 := by
  intro i data
  induction data generalizing i with
  | nil => intro _ b hb; simp [ctrXorFrom] at hb
  | cons a t ih =>
    intro hd b hb
    simp only [ctrXorFrom] at hb
    rcases List.mem_cons.mp hb with hb | hb
    · subst hb
      have h1 : a < 2 ^ 8 := by have := hd a (by simp); omega
      have h2 : ks iv i % 256 < 2 ^ 8 := by have := Nat.mod_lt (ks iv i) (show 0 < 256 by omega); omega
      have := Nat.xor_lt_two_pow h1 h2
      omega
    · exact ih (i + 1) (fun x hx => hd x (by simp [hx])) b hb

theorem ctrXor_lt (ks : KS) (iv : List Nat) (data : List Nat)
    (h : ∀ b ∈ data, b < 256) : ∀ b ∈ ctrXor ks iv data, b < 256 :=
  ctrXorFrom_lt ks iv 0 data h

/-! ## Frame character classes -/

theorem natToDec_no_bar (n : Nat) : '|' ∉ natToDec n :=
  fun hm => digit_ne_bar (natToDec_all_digits n _ hm) rfl

theorem tok_char_facts {bs : List Nat} (hb : ∀ b ∈ bs, b < 256) :
    ∀ c ∈ b64encodeChars bs, c ≠ '|' ∧ c ≠ '\n' ∧ isWs c = false := by
  intro c hc
  rcases mem_b64encodeChars bs hb c hc with ⟨v, hv, rfl⟩ | rfl
  · exact ⟨(b64chr_facts v hv).2.2.2.1, (b64chr_facts v hv).2.2.2.2.1,
      (b64chr_facts v hv).2.2.2.2.2⟩
  · exact ⟨eq_char_facts.2.1, eq_char_facts.2.2.1, eq_char_facts.2.2.2⟩

/-- All bytes of `iv ++ ciphertext` are < 256. -/
theorem encBytes_lt {ks : KS} {iv msg : List Nat}
    (hivB : ∀ b ∈ iv, b < 256) (hmB : ∀ b ∈ msg, b < 256) :
    ∀ b ∈ iv ++ ctrXor ks iv msg, b < 256 := by
  intro b hb
  rcases List.mem_append.mp hb with hb | hb
  · exact hivB b hb
  · exact ctrXor_lt ks iv msg hmB b hb

/-- Every character of `f"{n}|{token}"` is neither a newline nor
whitespace. -/
theorem frame_core_chars {ks : KS} {iv msg : List Nat} (n : Nat)
    (hivB : ∀ b ∈ iv, b < 256) (hmB : ∀ b ∈ msg, b < 256) :
    ∀ c ∈ natToDec n ++ '|' :: encrypt_message ks iv msg,
      c ≠ '\n' ∧ isWs c = false := by
  intro c hc
  rcases List.mem_append.mp hc with hc | hc
  · exact ⟨digit_ne_nl (natToDec_all_digits n c hc),
      not_ws_of_digit (natToDec_all_digits n c hc)⟩
  · rcases List.mem_cons.mp hc with hc | hc
    · subst hc
      exact ⟨by decide, by decide⟩
    · exact ⟨(tok_char_facts (encBytes_lt hivB hmB) c hc).2.1,
        (tok_char_facts (encBytes_lt hivB hmB) c hc).2.2⟩

/-! ## decrypt_message on honest and corrupted tokens -/

/-- Decrypting an unmodified token recovers the plaintext bytes. -/
theorem decrypt_encrypt (ks : KS) (iv msg : List Nat) (hiv : iv.length = 16)
    (hivB : ∀ b ∈ iv, b < 256) (hmB : ∀ b ∈ msg, b < 256) :
    decrypt_message ks (encrypt_message ks iv msg) = some msg := by
  unfold decrypt_message encrypt_message b64pad
  rw [if_pos (b64encodeChars_len_mod _)]
  rw [filter_b64encode (encBytes_lt hivB hmB)]
  rw [b64decodeKept_encode _ (encBytes_lt hivB hmB)]
  show some (ctrXor ks ((iv ++ ctrXor ks iv msg).take 16)
    ((iv ++ ctrXor ks iv msg).drop 16)) = some msg
  rw [List.take_left' hiv, List.drop_left' hiv]
  rw [ctrXor_invol]

/-- Decrypting `token + "|" + digits` always raises inside `b64decode`:
after the re-padding to a multiple of four, discarding the `'|'` leaves a
character count that is 3 mod 4. -/
theorem decrypt_bar_none (ks : KS) (bs : List Nat) (hb : ∀ b ∈ bs, b < 256)
    (P : List Char) (hP : ∀ c ∈ P, isDigitA c = true) :
    decrypt_message ks (b64encodeChars bs ++ '|' :: P) = none := by
  have hT := b64encodeChars_len_mod bs
  have hfil : ∀ (cs : List Char), (∀ c ∈ cs, isDigitA c = true) →
      cs.filter b64keep = cs :=
    fun cs hcs => List.filter_eq_self.mpr (fun c hc => b64keep_digit (hcs c hc))
  have hfil_eq : (List.replicate (4 - (b64encodeChars bs ++ '|' :: P).length % 4)
      '=').filter b64keep = List.replicate (4 - (b64encodeChars bs ++ '|' :: P).length % 4) '=' :=
    List.filter_eq_self.mpr (fun c hc => by
      rw [List.eq_of_mem_replicate hc]
      exact eq_char_facts.1)
  unfold decrypt_message b64pad
  have hkept : ∀ (extra : List Char), extra.filter b64keep = extra →
      ((b64encodeChars bs ++ '|' :: P) ++ extra).filter b64keep
        = b64encodeChars bs ++ (P ++ extra) := by
    intro extra hex
    rw [List.filter_append, List.filter_append, filter_b64encode hb]
    rw [List.filter_cons_of_neg (by simp [b64keep_bar_false]), hfil P hP, hex]
    simp
  by_cases hlen : (b64encodeChars bs ++ '|' :: P).length % 4 = 0
  · rw [if_pos hlen]
    have h0 : ((b64encodeChars bs ++ '|' :: P) ++ ([] : List Char)).filter b64keep
        = b64encodeChars bs ++ (P ++ []) := hkept [] rfl
    rw [List.append_nil] at h0
    rw [h0, b64decodeKept_none_mod (b64encodeChars bs ++ (P ++ [])) (by
      simp only [List.length_append, List.length_cons, List.length_nil] at hlen ⊢
      omega)]
  · rw [if_neg hlen]
    rw [hkept _ hfil_eq, b64decodeKept_none_mod _ (by
      simp only [List.length_append, List.length_cons, List.length_replicate] at hlen ⊢
      omega)]

/-! ## recv_with_checksum evaluation lemmas -/

/-- Evaluation of `recv_with_checksum` on a stripped line of the shape
`f"{n}|{token}|{R}"` with `'|'` not in `R`: the result is `(n, msg)` when
`int(R)` equals the CRC-32 of the first part, `None` otherwise. -/
theorem recv_eval_frame (ks : KS) (iv msg : List Nat) (n : Nat)
    (R stream : List Char) (hiv : iv.length = 16)
    (hivB : ∀ b ∈ iv, b < 256) (hmB : ∀ b ∈ msg, b < 256)
    (hRbar : '|' ∉ R)
    (hline : stripChars (takeLine stream)
      = (natToDec n ++ '|' :: encrypt_message ks iv msg) ++ '|' :: R) :
    recv_with_checksum ks stream =
      match pyIntL R with
      | none => none
      | some v =>
        if v = (crc32 (strBytes (natToDec n ++ '|' :: encrypt_message ks iv msg)) : Int)
        then some ((n : Int), msg) else none := by
  unfold recv_with_checksum
  rw [hline, rsplitOnce_append hRbar]
  cases hR : pyIntL R with
  | none => simp only [hR]
  | some v =>
    simp only [hR]
    by_cases hv : v = (crc32 (strBytes (natToDec n ++ '|' :: encrypt_message ks iv msg)) : Int)
    · rw [if_neg (fun hcon => hcon hv)]
      simp only [splitOnce_append (natToDec_no_bar n), pyIntL_natToDec n,
        decrypt_encrypt ks iv msg hiv hivB hmB]
      rw [if_pos hv]
    · rw [if_pos hv, if_neg hv]

/-- Evaluation of `recv_with_checksum` when the stripped line has the shape
`f"{n}|{token}|{P}|{R2}"` (a `'|'` landed inside the checksum field): the
result is always `None` — either the checksum comparison fails, or
decryption of `token + "|" + P` raises inside `b64decode`. -/
theorem recv_eval_resplit (ks : KS) (iv msg : List Nat) (n : Nat)
    (P R2 stream : List Char) (hiv : iv.length = 16)
    (hivB : ∀ b ∈ iv, b < 256) (hmB : ∀ b ∈ msg, b < 256)
    (hP : ∀ c ∈ P, isDigitA c = true) (hR2bar : '|' ∉ R2)
    (hline : stripChars (takeLine stream)
      = ((natToDec n ++ '|' :: encrypt_message ks iv msg) ++ '|' :: P) ++ '|' :: R2) :
    recv_with_checksum ks stream = none := by
  unfold recv_with_checksum
  rw [hline, rsplitOnce_append hR2bar]
  cases hR : pyIntL R2 with
  | none => simp only [hR]
  | some v =>
    simp only [hR]
    by_cases hv : v
        = (crc32 (strBytes ((natToDec n ++ '|' :: encrypt_message ks iv msg) ++ '|' :: P)) : Int)
    · rw [if_neg (fun hcon => hcon hv)]
      have hsp : splitOnceList '|'
          ((natToDec n ++ '|' :: encrypt_message ks iv msg) ++ '|' :: P)
          = some (natToDec n, encrypt_message ks iv msg ++ '|' :: P) := by
        have hx := @splitOnce_append '|'
          (natToDec n) (encrypt_message ks iv msg ++ '|' :: P)
          (natToDec_no_bar n)
        simpa using hx
      simp only [encrypt_message] at hsp
      simp only [encrypt_message, hsp, pyIntL_natToDec n,
        decrypt_bar_none ks _ (encBytes_lt hivB hmB) P hP]
    · rw [if_pos hv]

/-- Characters of a full frame line `M ++ '|' :: R` with `R` a mix of
digits and one extra character `c`: all differ from a given bad character
when the components do. -/
theorem frame_line_no_nl {ks : KS} {iv msg : List Nat} (n : Nat)
    (hivB : ∀ b ∈ iv, b < 256) (hmB : ∀ b ∈ msg, b < 256)
    {R : List Char} (hR : ∀ c ∈ R, c ≠ '\n') :
    ∀ c ∈ (natToDec n ++ '|' :: encrypt_message ks iv msg) ++ '|' :: R,
      c ≠ '\n' := by
  intro c hc
  rcases List.mem_append.mp hc with hc | hc
  · exact (frame_core_chars n hivB hmB c hc).1
  · rcases List.mem_cons.mp hc with hc | hc
    · subst hc; decide
    · exact hR c hc

theorem frame_line_no_ws {ks : KS} {iv msg : List Nat} (n : Nat)
    (hivB : ∀ b ∈ iv, b < 256) (hmB : ∀ b ∈ msg, b < 256)
    {R : List Char} (hR : ∀ c ∈ R, isWs c = false) :
    ∀ c ∈ (natToDec n ++ '|' :: encrypt_message ks iv msg) ++ '|' :: R,
      isWs c = false := by
  intro c hc
  rcases List.mem_append.mp hc with hc | hc
  · exact (frame_core_chars n hivB hmB c hc).2
  · rcases List.mem_cons.mp hc with hc | hc
    · subst hc; decide
    · exact hR c hc

/-- The strip-and-readline step on an all-clean frame line is the identity:
`takeLine` keeps everything before the final newline and `strip` removes
nothing. -/
theorem frame_line_strip {ks : KS} {iv msg : List Nat} (n : Nat)
    (hivB : ∀ b ∈ iv, b < 256) (hmB : ∀ b ∈ msg, b < 256)
    {R : List Char} (hRnl : ∀ c ∈ R, c ≠ '\n') (hRws : ∀ c ∈ R, isWs c = false) :
    stripChars (takeLine
        (((natToDec n ++ '|' :: encrypt_message ks iv msg) ++ '|' :: R) ++ ['\n']))
      = (natToDec n ++ '|' :: encrypt_message ks iv msg) ++ '|' :: R := by
  have h1 : (((natToDec n ++ '|' :: encrypt_message ks iv msg) ++ '|' :: R) ++ ['\n'])
      = ((natToDec n ++ '|' :: encrypt_message ks iv msg) ++ '|' :: R) ++ '\n' :: [] := rfl
  rw [h1, takeLine_append_nl (frame_line_no_nl n hivB hmB hRnl)]
  exact stripChars_eq_of_all (frame_line_no_ws n hivB hmB hRws)

/-- Round-trip half of the Wire-Codec law: the server's
`recv_with_checksum` on an untampered client frame returns exactly the
sequence number and the plaintext. -/
theorem client_roundtrip (ks : KS) (iv msg : List Nat) (n : Nat)
    (hiv : iv.length = 16) (hivB : ∀ b ∈ iv, b < 256) (hmB : ∀ b ∈ msg, b < 256) :
    recv_with_checksum ks (client_frame ks iv n msg ++ ['\n'])
      = some ((n : Int), msg) := by
  have hmask := crc32Masked_strBytes (natToDec n ++ '|' :: encrypt_message ks iv msg)
  have hdig := natToDec_all_digits
    (crc32 (strBytes (natToDec n ++ '|' :: encrypt_message ks iv msg)))
  rw [show client_frame ks iv n msg
      = (natToDec n ++ '|' :: encrypt_message ks iv msg) ++
        '|' :: natToDec (crc32 (strBytes (natToDec n ++ '|' :: encrypt_message ks iv msg)))
    from by unfold client_frame; rw [hmask]]
  rw [recv_eval_frame ks iv msg n _ _ hiv hivB hmB (natToDec_no_bar _)
    (frame_line_strip n hivB hmB
      (fun c hc => digit_ne_nl (hdig c hc))
      (fun c hc => not_ws_of_digit (hdig c hc)))]
  simp [pyIntL_natToDec]

/-! ## Helpers for the tampered-checksum analysis -/

theorem digitsVal_of_digits {cs : List Char} (hne : cs ≠ [])
    (hdig : ∀ c ∈ cs, isDigitA c = true) :
    digitsVal cs = some (decValAux 0 cs) := by
  unfold digitsVal
  rw [if_neg (by simpa [List.isEmpty_iff] using hne),
      if_pos (by rw [List.all_eq_true]; exact hdig)]

theorem getLast?_append_cons {α : Type} {l : List α} {a : α} {r : List α}
    (h : r ≠ []) : (l ++ a :: r).getLast? = r.getLast? := by
  rw [List.getLast?_append]
  have h1 : (a :: r).getLast? = r.getLast? := by
    cases r with
    | nil => exact absurd rfl h
    | cons b t => exact List.getLast?_cons_cons
  rw [h1]
  obtain ⟨x, hx⟩ := Option.isSome_iff_exists.mp (List.getLast?_isSome.mpr h)
  rw [hx]
  rfl

theorem getLast?_set_of_lt {α : Type} {l : List α} {i : Nat} (c : α)
    (h : i + 1 < l.length) : (l.set i c).getLast? = l.getLast? := by
  rw [List.getLast?_eq_getElem?, List.getLast?_eq_getElem?, List.length_set]
  exact List.getElem?_set_ne (by omega)

/-- The generic `None` outcome of `recv_with_checksum` on a frame whose
checksum field either fails `int()` or disagrees with the CRC. -/
theorem recv_eval_frame_none (ks : KS) (iv msg : List Nat) (n : Nat)
    (R stream : List Char) (hiv : iv.length = 16)
    (hivB : ∀ b ∈ iv, b < 256) (hmB : ∀ b ∈ msg, b < 256)
    (hRbar : '|' ∉ R)
    (hline : stripChars (takeLine stream)
      = (natToDec n ++ '|' :: encrypt_message ks iv msg) ++ '|' :: R)
    (hpy : pyIntL R = none ∨ ∃ v, pyIntL R = some v ∧
      v ≠ (crc32 (strBytes (natToDec n ++ '|' :: encrypt_message ks iv msg)) : Int)) :
    recv_with_checksum ks stream = none := by
  rw [recv_eval_frame ks iv msg n R stream hiv hivB hmB hRbar hline]
  rcases hpy with h | ⟨v, hv, hne⟩
  · simp only [h]
  · simp only [hv]
    rw [if_neg hne]

/-- Core of the tamper analysis: corrupting character `i` of the checksum
field (the decimal digits of `crcV`) to a character whose `int()` digit
value differs from the original digit's value — any non-digit character,
or any Unicode decimal digit of a different value — always makes
`recv_with_checksum` return `None`. (An equal-valued digit substitute is
accepted, since `int()` maps every Unicode decimal digit to its value.) -/
theorem tamper_D (ks : KS) (iv msg : List Nat) (n : Nat) (i : Nat) (c : Char)
    (hiv : iv.length = 16) (hivB : ∀ b ∈ iv, b < 256) (hmB : ∀ b ∈ msg, b < 256)
    (crcV : Nat)
    (hcrcV : crcV = crc32 (strBytes (natToDec n ++ '|' :: encrypt_message ks iv msg)))
    (hi : i < (natToDec crcV).length)
    (hc : uniDigitVal c.toNat ≠ some (((natToDec crcV).getD i '0').toNat - 48)) :
    recv_with_checksum ks
      (((natToDec n ++ '|' :: encrypt_message ks iv msg) ++
        '|' :: (natToDec crcV).set i c) ++ ['\n']) = none := by
  set D := natToDec crcV with hDdef
  have hDdig : ∀ x ∈ D, isDigitA x = true := by rw [hDdef]; exact natToDec_all_digits _
  have hDne : D ≠ [] := by rw [hDdef]; exact natToDec_ne_nil _
  obtain ⟨d0, dt, hD0⟩ : ∃ a t, D = a :: t := by
    cases hDD : D with
    | nil => exact absurd hDD hDne
    | cons a t => exact ⟨a, t, rfl⟩
  have hd0dig : isDigitA d0 = true := hDdig d0 (by rw [hD0]; simp)
  have hdidig : isDigitA D[i] = true := hDdig _ (List.getElem_mem hi)
  have hgetD : D.getD i '0' = D[i] := by
    rw [List.getD_eq_getElem?_getD, List.getElem?_eq_getElem hi]
    rfl
  have hcv : uniDigitVal c.toNat ≠ some (D[i].toNat - 48) := by
    rw [← hgetD]
    exact hc
  have hsplit : D.set i c = D.take i ++ c :: D.drop (i + 1) := by
    rw [List.set_eq_take_append_cons_drop, if_pos hi]
  have htakedig : ∀ x ∈ D.take i, isDigitA x = true :=
    fun x hx => hDdig x (List.mem_of_mem_take hx)
  have hdropdig : ∀ x ∈ D.drop (i + 1), isDigitA x = true :=
    fun x hx => hDdig x (List.mem_of_mem_drop hx)
  have hsetmem : ∀ x ∈ D.set i c, x = c ∨ isDigitA x = true := by
    intro x hx
    rcases List.mem_or_eq_of_mem_set hx with hx | hx
    · exact Or.inr (hDdig x hx)
    · exact Or.inl hx
  have htklen : (D.take i).length = i := by
    rw [List.length_take]
    exact Nat.min_eq_left (le_of_lt hi)
  have hDval : decValAux 0 D = crcV := by
    rw [hDdef, decValAux_natToDec crcV 0]
    simp
  -- the prefix value is always below crcV when nonempty
  have hprefix_lt : ∀ (R : List Char), R ≠ [] → (∀ x ∈ R, isDigitA x = true) →
      R.length < D.length → ((decValAux 0 R : Nat) : Int) ≠ (crcV : Int) := by
    intro R hne hdig hlen heq
    have hlt : decValAux 0 R < crcV :=
      sub_digit_lt hne hdig (by rw [← hDdef]; exact hlen)
    exact absurd (Nat.cast_inj.mp heq) (Nat.ne_of_lt hlt)
  by_cases hnl : c = '\n'
  · -- newline: readline truncates inside the checksum field
    subst hnl
    refine recv_eval_frame_none ks iv msg n (D.take i) _ hiv hivB hmB
      (fun hm => digit_ne_bar (htakedig _ hm) rfl) ?_ ?_
    · rw [hsplit]
      have hre : (((natToDec n ++ '|' :: encrypt_message ks iv msg) ++
            '|' :: (D.take i ++ '\n' :: D.drop (i + 1))) ++ ['\n'])
          = ((natToDec n ++ '|' :: encrypt_message ks iv msg) ++ '|' :: D.take i)
            ++ '\n' :: (D.drop (i + 1) ++ ['\n']) := by
        simp
      rw [hre, takeLine_append_nl (frame_line_no_nl n hivB hmB
        (fun x hx => digit_ne_nl (htakedig x hx)))]
      exact stripChars_eq_of_all (frame_line_no_ws n hivB hmB
        (fun x hx => not_ws_of_digit (htakedig x hx)))
    · rw [← hcrcV]
      rcases Nat.eq_zero_or_pos i with hi0 | hipos
      · left
        subst hi0
        simp [pyIntL_nil]
      · right
        have hne : D.take i ≠ [] := by
          intro hcon
          rw [hcon] at htklen
          simp at htklen
          omega
        exact ⟨_, pyIntL_all_digits hne htakedig,
          hprefix_lt (D.take i) hne htakedig (by omega)⟩
  by_cases hbar : c = '|'
  · -- '|': the line re-splits; decryption then fails inside b64decode
    subst hbar
    refine recv_eval_resplit ks iv msg n (D.take i) (D.drop (i + 1)) _ hiv hivB hmB
      htakedig (fun hm => digit_ne_bar (hdropdig _ hm) rfl) ?_
    rw [hsplit]
    have hre : (((natToDec n ++ '|' :: encrypt_message ks iv msg) ++
          '|' :: (D.take i ++ '|' :: D.drop (i + 1))) ++ ['\n'])
        = (((natToDec n ++ '|' :: encrypt_message ks iv msg) ++
          '|' :: (D.take i ++ '|' :: D.drop (i + 1)))) ++ '\n' :: [] := rfl
    rw [hre, takeLine_append_nl (frame_line_no_nl n hivB hmB (by
      intro x hx
      rcases List.mem_append.mp hx with hx | hx
      · exact digit_ne_nl (htakedig x hx)
      · rcases List.mem_cons.mp hx with hx | hx
        · subst hx; decide
        · exact digit_ne_nl (hdropdig x hx)))]
    have hstr := @stripChars_eq_of_all
        ((natToDec n ++ '|' :: encrypt_message ks iv msg) ++
          '|' :: (D.take i ++ '|' :: D.drop (i + 1)))
      (frame_line_no_ws n hivB hmB (by
        intro x hx
        rcases List.mem_append.mp hx with hx | hx
        · exact not_ws_of_digit (htakedig x hx)
        · rcases List.mem_cons.mp hx with hx | hx
          · subst hx; decide
          · exact not_ws_of_digit (hdropdig x hx)))
    rw [hstr]
    simp
  by_cases hws : isWs c = true
  · -- whitespace substitute (but not newline)
    by_cases hlast : i + 1 = D.length
    · -- trailing position: strip removes it
      have hset_end : D.set i c = D.take i ++ [c] := by
        rw [hsplit, List.drop_eq_nil_of_le (by omega)]
      refine recv_eval_frame_none ks iv msg n (D.take i) _ hiv hivB hmB
        (fun hm => digit_ne_bar (htakedig _ hm) rfl) ?_ ?_
      · rw [hset_end]
        have hre : (((natToDec n ++ '|' :: encrypt_message ks iv msg) ++
              '|' :: (D.take i ++ [c])) ++ ['\n'])
            = (((natToDec n ++ '|' :: encrypt_message ks iv msg) ++
              '|' :: D.take i) ++ [c]) ++ '\n' :: [] := by
          simp
        rw [hre, takeLine_append_nl (by
          intro x hx
          rcases List.mem_append.mp hx with hx | hx
          · exact frame_line_no_nl n hivB hmB
              (fun y hy => digit_ne_nl (htakedig y hy)) x hx
          · rw [List.mem_singleton] at hx
            subst hx
            exact hnl)]
        apply stripChars_drop_last_ws hws (by simp)
        · intro x hx
          cases hnd : natToDec n with
          | nil => exact absurd hnd (natToDec_ne_nil n)
          | cons a t =>
            rw [hnd] at hx
            simp at hx
            subst hx
            exact not_ws_of_digit (natToDec_all_digits n a (by rw [hnd]; simp))
        · intro x hx
          exact frame_line_no_ws n hivB hmB
            (fun y hy => not_ws_of_digit (htakedig y hy)) x
            (List.mem_of_mem_getLast? hx)
      · rw [← hcrcV]
        rcases Nat.eq_zero_or_pos i with hi0 | hipos
        · left
          subst hi0
          simp [pyIntL_nil]
        · right
          have hne : D.take i ≠ [] := by
            intro hcon
            rw [hcon] at htklen
            simp at htklen
            omega
          exact ⟨_, pyIntL_all_digits hne htakedig,
            hprefix_lt (D.take i) hne htakedig (by omega)⟩
    · -- non-trailing whitespace
      have hlt2 : i + 1 < D.length := by omega
      have hstrip : stripChars (takeLine
          (((natToDec n ++ '|' :: encrypt_message ks iv msg) ++
            '|' :: D.set i c) ++ ['\n']))
          = (natToDec n ++ '|' :: encrypt_message ks iv msg) ++ '|' :: D.set i c := by
        have ht := @takeLine_append_nl
            ((natToDec n ++ '|' :: encrypt_message ks iv msg) ++ '|' :: D.set i c)
          [] (frame_line_no_nl n hivB hmB (by
            intro x hx
            rcases hsetmem x hx with rfl | hxd
            · exact hnl
            · exact digit_ne_nl hxd))
        rw [show (((natToDec n ++ '|' :: encrypt_message ks iv msg) ++
            '|' :: D.set i c) ++ ['\n'])
          = ((natToDec n ++ '|' :: encrypt_message ks iv msg) ++
            '|' :: D.set i c) ++ '\n' :: [] from rfl, ht]
        apply stripChars_eq_self
        · intro x hx
          cases hnd : natToDec n with
          | nil => exact absurd hnd (natToDec_ne_nil n)
          | cons a t =>
            rw [hnd] at hx
            simp at hx
            subst hx
            exact not_ws_of_digit (natToDec_all_digits n a (by rw [hnd]; simp))
        · intro x hx
          rw [getLast?_append_cons (by
            intro hcon
            have := congrArg List.length hcon
            rw [List.length_set] at this
            simp at this
            rw [this] at hi
            simp at hi)] at hx
          rw [getLast?_set_of_lt c hlt2] at hx
          exact not_ws_of_digit (hDdig x (List.mem_of_mem_getLast? hx))
      refine recv_eval_frame_none ks iv msg n (D.set i c) _ hiv hivB hmB (by
        intro hm
        rcases hsetmem _ hm with hm | hm
        · exact hbar hm.symm
        · exact digit_ne_bar hm rfl) hstrip ?_
      rw [← hcrcV]
      rcases Nat.eq_zero_or_pos i with hi0 | hipos
      · -- leading whitespace: int() strips it, shorter value remains
        right
        subst hi0
        have hdtne : dt ≠ [] := by
          intro hcon
          rw [hD0, hcon] at hlt2
          simp at hlt2
        have hdtdig : ∀ x ∈ dt, isDigitA x = true :=
          fun x hx => hDdig x (by rw [hD0]; simp [hx])
        rw [hD0, List.set_cons_zero]
        refine ⟨_, pyIntL_ws_lead hws hdtne hdtdig, ?_⟩
        have hlen : dt.length < D.length := by rw [hD0]; simp
        exact hprefix_lt dt hdtne hdtdig hlen
      · -- interior whitespace: int() fails on the digit-group check
        left
        obtain ⟨j, rfl⟩ : ∃ j, i = j + 1 := ⟨i - 1, by omega⟩
        rw [hD0, List.set_cons_succ]
        refine @pyIntL_none_of_bad _ d0 (dt.set j c) c
          ?_ rfl (digit_ne_plus hd0dig) (digit_ne_minus hd0dig) ?_
          (ws_not_uniDigit hws) (ws_ne_underscore hws)
        · apply stripChars_eq_self
          · intro x hx
            simp at hx
            subst hx
            exact not_ws_of_digit hd0dig
          · intro x hx
            rw [show (d0 :: dt.set j c) = (d0 :: dt).set (j + 1) c from
              (List.set_cons_succ d0 dt j c).symm] at hx
            rw [getLast?_set_of_lt c (by rw [hD0] at hlt2; exact hlt2)] at hx
            exact not_ws_of_digit (hDdig x (by
              rw [hD0]
              exact List.mem_of_mem_getLast? hx))
        · have hjlt : j < dt.length := by
            rw [hD0, List.length_cons] at hlt2
            omega
          rw [List.set_eq_take_append_cons_drop, if_pos hjlt]
          simp
  · -- non-whitespace, non-bar, non-newline substitute
    have hstrip : stripChars (takeLine
        (((natToDec n ++ '|' :: encrypt_message ks iv msg) ++
          '|' :: D.set i c) ++ ['\n']))
        = (natToDec n ++ '|' :: encrypt_message ks iv msg) ++ '|' :: D.set i c := by
      have ht := @takeLine_append_nl
          ((natToDec n ++ '|' :: encrypt_message ks iv msg) ++ '|' :: D.set i c)
        [] (frame_line_no_nl n hivB hmB (by
          intro x hx
          rcases hsetmem x hx with rfl | hxd
          · exact hnl
          · exact digit_ne_nl hxd))
      rw [show (((natToDec n ++ '|' :: encrypt_message ks iv msg) ++
          '|' :: D.set i c) ++ ['\n'])
        = ((natToDec n ++ '|' :: encrypt_message ks iv msg) ++
          '|' :: D.set i c) ++ '\n' :: [] from rfl, ht]
      exact stripChars_eq_of_all (frame_line_no_ws n hivB hmB (by
        intro x hx
        rcases hsetmem x hx with rfl | hxd
        · simpa using hws
        · exact not_ws_of_digit hxd))
    refine recv_eval_frame_none ks iv msg n (D.set i c) _ hiv hivB hmB (by
      intro hm
      rcases hsetmem _ hm with hm | hm
      · exact hbar hm.symm
      · exact digit_ne_bar hm rfl) hstrip ?_
    rw [← hcrcV]
    have hsetne : D.set i c ≠ [] := by
      intro hcon
      have := congrArg List.length hcon
      rw [List.length_set] at this
      simp at this
      rw [this] at hi
      simp at hi
    have hstr : stripChars (D.set i c) = D.set i c := by
      apply stripChars_eq_of_all
      intro x hx
      rcases hsetmem x hx with rfl | hxd
      · simpa using hws
      · exact not_ws_of_digit hxd
    by_cases hdigc : isUniDigit c = true
    · -- a decimal digit of a different value: int() succeeds but the
      -- parsed number moves away from the CRC
      right
      obtain ⟨v, hv⟩ := Option.isSome_iff_exists.mp
        (show (uniDigitVal c.toNat).isSome = true from hdigc)
      have hvne : v ≠ D[i].toNat - 48 := by
        intro he
        exact hcv (by rw [hv, he])
      have hsetdig : ∀ x ∈ D.set i c, isUniDigit x = true := by
        intro x hx
        rcases hsetmem x hx with rfl | hxd
        · exact hdigc
        · exact isUniDigit_of_ascii hxd
      refine ⟨_, pyIntL_uniDigits hsetne hsetdig, ?_⟩
      intro heq
      have hne := set_digit_val_ne hi hDdig hv hvne
      rw [hDval] at hne
      exact hne (Nat.cast_inj.mp heq)
    · by_cases hund : c = '_'
      · -- underscore substitute
        subst hund
        rcases Nat.eq_zero_or_pos i with hi0 | hipos
        · -- leading underscore: the digit group may not start with '_'
          left
          subst hi0
          rw [hD0, List.set_cons_zero] at hstr ⊢
          exact pyIntL_none_of_groupFail hstr rfl (by decide) (by decide)
            (digitGroupOk_head_false (by decide))
        · by_cases hlast : i + 1 = D.length
          · -- trailing underscore: the digit group may not end with '_'
            left
            have hset_end : D.set i '_' = D.take i ++ ['_'] := by
              rw [hsplit, List.drop_eq_nil_of_le (by omega)]
            have hg : digitGroupOk (D.set i '_') = false :=
              digitGroupOk_last_false
                (by rw [hset_end]; exact List.getLast?_concat _) (by decide)
            obtain ⟨j, rfl⟩ : ∃ j, i = j + 1 := ⟨i - 1, by omega⟩
            rw [hD0, List.set_cons_succ] at hstr hg ⊢
            exact pyIntL_none_of_groupFail hstr rfl (digit_ne_plus hd0dig)
              (digit_ne_minus hd0dig) hg
          · -- interior underscore: PEP 515 accepts the group, but its
            -- value then has one digit fewer and falls short of the CRC
            right
            have hlt2 : i + 1 < D.length := by omega
            have hdrne : D.drop (i + 1) ≠ [] := by
              intro hcon
              have := congrArg List.length hcon
              rw [List.length_drop] at this
              simp at this
              omega
            have hgok : digitGroupOk (D.set i '_') = true := by
              cases htk0 : D.take i with
              | nil =>
                exfalso
                rw [htk0] at htklen
                simp at htklen
                omega
              | cons a t =>
                rw [hsplit, htk0]
                simp only [List.cons_append, digitGroupOk]
                simp only [Bool.and_eq_true]
                refine ⟨⟨⟨?_, ?_⟩, ?_⟩, ?_⟩
                · exact isUniDigit_of_ascii (htakedig a (by rw [htk0]; simp))
                · rw [show (a :: (t ++ '_' :: D.drop (i + 1))).getLast?
                      = (D.drop (i + 1)).getLast? from by
                    rw [show a :: (t ++ '_' :: D.drop (i + 1))
                        = (a :: t) ++ '_' :: D.drop (i + 1) from by simp]
                    exact getLast?_append_cons hdrne]
                  obtain ⟨d, hd⟩ := Option.isSome_iff_exists.mp
                    (List.getLast?_isSome.mpr hdrne)
                  rw [hd]
                  exact isUniDigit_of_ascii
                    (hdropdig d (List.mem_of_mem_getLast? hd))
                · rw [List.all_eq_true]
                  intro x hx
                  have hx2 : x ∈ D.set i '_' := by
                    rw [hsplit, htk0]
                    simpa using hx
                  rcases hsetmem x hx2 with rfl | hxd
                  · simp
                  · simp [isUniDigit_of_ascii hxd]
                · rw [show a :: (t ++ '_' :: D.drop (i + 1))
                      = (a :: t) ++ '_' :: D.drop (i + 1) from by simp]
                  exact noDouble_single
                    (fun y hy => digit_ne_underscore (hdropdig y hy))
                    (a :: t)
                    (fun x hx => digit_ne_underscore
                      (htakedig x (by rw [htk0]; exact hx)))
            obtain ⟨j, hij⟩ : ∃ j, i = j + 1 := ⟨i - 1, by omega⟩
            have hpy : pyIntL (D.set i '_')
                = some ((uniValAux 0 (D.set i '_') : Nat) : Int) := by
              unfold pyIntL
              rw [hstr]
              rw [show D.set i '_' = d0 :: dt.set j '_' from by
                rw [hij, hD0, List.set_cons_succ]]
              simp only [pyIntSigned]
              rw [if_neg (digit_ne_plus hd0dig), if_neg (digit_ne_minus hd0dig)]
              unfold pyDigitsVal
              rw [if_pos (by
                rw [show d0 :: dt.set j '_' = D.set i '_' from by
                  rw [hij, hD0, List.set_cons_succ]]
                exact hgok)]
              rfl
            refine ⟨_, hpy, ?_⟩
            have hval : uniValAux 0 (D.set i '_')
                = decValAux 0 (D.take i ++ D.drop (i + 1)) := by
              rw [hsplit, uniValAux_append, uniValAux_cons,
                show uniDigitVal ('_' : Char).toNat = none from by decide]
              show uniValAux (uniValAux 0 (D.take i)) (D.drop (i + 1)) = _
              rw [uniValAux_ascii hdropdig, uniValAux_ascii htakedig,
                decValAux_append]
            rw [hval]
            exact hprefix_lt (D.take i ++ D.drop (i + 1))
              (by
                intro hcon
                have := congrArg List.length hcon
                rw [List.length_append, List.length_take, List.length_drop] at this
                simp at this
                omega)
              (by
                intro x hx
                rcases List.mem_append.mp hx with hx | hx
                · exact htakedig x hx
                · exact hdropdig x hx)
              (by
                rw [List.length_append, List.length_take, List.length_drop]
                omega)
      · by_cases hplus : c = '+'
        · subst hplus
          rcases Nat.eq_zero_or_pos i with hi0 | hipos
          · subst hi0
            rw [hD0, List.set_cons_zero]
            cases hdt : dt with
            | nil =>
              left
              rw [pyIntL_plus (by simp)]
              rfl
            | cons e et =>
              right
              have hdtdig : ∀ x ∈ dt, isDigitA x = true :=
                fun x hx => hDdig x (by rw [hD0]; simp [hx])
              rw [← hdt, pyIntL_plus hdtdig,
                pyDigitsVal_of_digits (by rw [hdt]; simp) hdtdig]
              refine ⟨_, rfl, ?_⟩
              have hlen : dt.length < D.length := by rw [hD0]; simp
              exact hprefix_lt dt (by rw [hdt]; simp) hdtdig hlen
          · left
            obtain ⟨j, rfl⟩ : ∃ j, i = j + 1 := ⟨i - 1, by omega⟩
            rw [hD0, List.set_cons_succ]
            refine @pyIntL_none_of_bad _ d0 (dt.set j '+') '+'
              ?_ rfl (digit_ne_plus hd0dig) (digit_ne_minus hd0dig) ?_
              (by decide) (by decide)
            · apply stripChars_eq_of_all
              intro x hx
              rcases hsetmem x (by rw [hD0, List.set_cons_succ]; exact hx) with rfl | hxd
              · decide
              · exact not_ws_of_digit hxd
            · rw [show d0 :: dt.set j '+' = (d0 :: dt).set (j + 1) '+' from
                (List.set_cons_succ d0 dt j '+').symm, ← hD0, hsplit]
              simp
        · by_cases hminus : c = '-'
          · subst hminus
            rcases Nat.eq_zero_or_pos i with hi0 | hipos
            · subst hi0
              rw [hD0, List.set_cons_zero]
              cases hdt : dt with
              | nil =>
                left
                rw [pyIntL_minus (by simp)]
                rfl
              | cons e et =>
                right
                have hdtdig : ∀ x ∈ dt, isDigitA x = true :=
                  fun x hx => hDdig x (by rw [hD0]; simp [hx])
                rw [← hdt, pyIntL_minus hdtdig,
                  pyDigitsVal_of_digits (by rw [hdt]; simp) hdtdig]
                refine ⟨_, rfl, ?_⟩
                have hL2 : 2 ≤ D.length := by
                  rw [hD0, hdt]
                  simp
                have h10 : 10 ≤ crcV := by
                  apply natToDec_len2_ge
                  rw [← hDdef]
                  exact hL2
                intro heq
                have heq2 : -((decValAux 0 dt : Nat) : Int) = (crcV : Int) := heq
                have hge : (0 : Int) ≤ ((decValAux 0 dt : Nat) : Int) :=
                  Int.natCast_nonneg _
                have hge2 : (10 : Int) ≤ (crcV : Int) := by exact_mod_cast h10
                omega
            · left
              obtain ⟨j, rfl⟩ : ∃ j, i = j + 1 := ⟨i - 1, by omega⟩
              rw [hD0, List.set_cons_succ]
              refine @pyIntL_none_of_bad _ d0 (dt.set j '-') '-'
                ?_ rfl (digit_ne_plus hd0dig) (digit_ne_minus hd0dig) ?_
                (by decide) (by decide)
              · apply stripChars_eq_of_all
                intro x hx
                rcases hsetmem x (by rw [hD0, List.set_cons_succ]; exact hx) with rfl | hxd
                · decide
                · exact not_ws_of_digit hxd
              · rw [show d0 :: dt.set j '-' = (d0 :: dt).set (j + 1) '-' from
                  (List.set_cons_succ d0 dt j '-').symm, ← hD0, hsplit]
                simp
          · -- any other character: int() fails
            left
            rcases Nat.eq_zero_or_pos i with hi0 | hipos
            · subst hi0
              rw [hD0, List.set_cons_zero] at hstr ⊢
              exact @pyIntL_none_of_bad _ c dt c
                hstr rfl hplus hminus (by simp) (by
                  cases hdd : isUniDigit c
                  · rfl
                  · exact absurd hdd hdigc) hund
            · obtain ⟨j, rfl⟩ : ∃ j, i = j + 1 := ⟨i - 1, by omega⟩
              rw [hD0, List.set_cons_succ] at hstr ⊢
              refine @pyIntL_none_of_bad _ d0 (dt.set j c) c
                hstr rfl (digit_ne_plus hd0dig) (digit_ne_minus hd0dig) ?_ (by
                  cases hdd : isUniDigit c
                  · rfl
                  · exact absurd hdd hdigc) hund
              rw [show d0 :: dt.set j c = (d0 :: dt).set (j + 1) c from
                (List.set_cons_succ d0 dt j c).symm, ← hD0, hsplit]
              simp

/-! ## Game-loop lemmas -/

theorem bumpMoves_current (st : GState) : (bumpMoves st).current = st.current := by
  unfold bumpMoves
  split <;> rfl

theorem setTargetBoard_current (st : GState) (b : Board) :
    (setTargetBoard st b).current = st.current := by
  unfold setTargetBoard
  split <;> rfl

/-- The inner loop never changes whose turn it is; only the outer loop's
`current = 1 - current` does. -/
theorem processInput_current (st : GState) (inp : Option (List Char)) :
    (processInput st inp).1.current = st.current := by
  cases inp with
  | none => rfl
  | some g =>
    simp only [processInput]
    split
    · rfl
    · split
      · rfl
      · split
        · rfl
        · rfl
        · split
          · rfl
          · split
            · split <;> simp [bumpMoves_current, setTargetBoard_current]
            · simp [bumpMoves_current, setTargetBoard_current]
            · simp [bumpMoves_current, setTargetBoard_current]

/-- `fire_at` on an already-revealed cell reports `already_shot` and leaves
the board untouched. -/
theorem fire_at_resolved {b : Board} {row col : Int} {cell : Cell}
    (hg : pyGet2 b.hidden row col = some cell)
    (hcell : cell = Cell.hitc ∨ cell = Cell.missc) :
    b.fire_at row col = some (FireRes.alreadyR, none, b) := by
  unfold Board.fire_at
  rw [hg]
  rcases hcell with rfl | rfl
  · rfl
  · rfl

/-- Inversion: an `already_shot` result can only come from the untouched
board. -/
theorem fire_at_already_inv {b : Board} {row col : Int} {sunk : Option (List Char)}
    {b2 : Board} (h : b.fire_at row col = some (FireRes.alreadyR, sunk, b2)) :
    b2 = b ∧ sunk = none := by
  unfold Board.fire_at at h
  split at h
  · simp at h
  · split at h
    · split at h
      · simp at h
      · simp at h
    · split at h
      · split at h
        · simp at h
        · simp at h
      · simp at h
        exact ⟨h.2.symm, h.1.symm⟩

/-- Inversion of the inner loop on the `already_shot` path. -/
theorem processInput_already {st : GState} {inp : Option (List Char)} {st2 : GState}
    (h : processInput st inp = (st2, InnerOut.retryAlready)) :
    st2.current = st.current ∧ st2.board1 = st.board1 ∧ st2.board2 = st.board2 ∧
      (if st.current = 0 then st2.m1 = st.m1 + 1 ∧ st2.m2 = st.m2
       else st2.m2 = st.m2 + 1 ∧ st2.m1 = st.m1) := by
  cases inp with
  | none => simp [processInput] at h
  | some g =>
    simp only [processInput] at h
    split at h
    · simp at h
    · split at h
      · simp at h
      · split at h
        · simp at h
        · simp at h
        · rename_i rc hparse
          split at h
          · simp at h
          · rename_i fr hfire
            split at h
            · split at h
              · simp at h
              · simp at h
            · simp at h
            · rename_i hfr
              obtain ⟨hst2, -⟩ := Prod.mk.injEq .. |>.mp h
              obtain ⟨rf, rs, rb⟩ := fr
              simp only at hfr
              subst hfr
              obtain ⟨hb2, -⟩ := fire_at_already_inv hfire
              subst hb2
              subst hst2
              refine ⟨by rw [bumpMoves_current, setTargetBoard_current], ?_⟩
              unfold setTargetBoard bumpMoves targetBoard
              by_cases hcur : st.current = 0
              · simp [hcur]
              · simp [hcur]

/-- Inversion of the inner loop on the parse-error path: nothing changes. -/
theorem processInput_parseErr {st : GState} {inp : Option (List Char)} {st2 : GState}
    (h : processInput st inp = (st2, InnerOut.retryParse)) : st2 = st := by
  cases inp with
  | none => simp [processInput] at h
  | some g =>
    simp only [processInput] at h
    split at h
    · simp at h
    · split at h
      · simp at h
      · split at h
        · exact ((Prod.mk.injEq .. |>.mp h).1).symm
        · simp at h
        · split at h
          · simp at h
          · split at h
            · split at h
              · simp at h
              · simp at h
            · simp at h
            · simp at h

/-- The outer loop recurses through the retry (`continue`) outcomes with
the same acting player. -/
theorem outerStep_retry {st : GState} {inp : Option (List Char)}
    {rest : List (Option (List Char))} {st1 : GState} {out : InnerOut}
    (h : processInput st inp = (st1, out))
    (hout : out = InnerOut.retryEmpty ∨ out = InnerOut.retryParse ∨
      out = InnerOut.retryAlready) :
    outerStep st (inp :: rest) = outerStep st1 rest := by
  rcases hout with rfl | rfl | rfl <;> simp only [outerStep, h]

/-- Whenever an outer iteration completes a turn, the turn index flips and
the saved snapshot is exactly the post-turn state. -/
theorem outerStep_turnDone {st : GState} {inputs : List (Option (List Char))}
    {st2 : GState} {snap : Snapshot}
    (h : outerStep st inputs = OuterRes.turnDone st2 snap) :
    st2.current = 1 - st.current ∧ snap = snapshotOf st2 := by
  induction inputs generalizing st with
  | nil => simp [outerStep] at h
  | cons inp rest ih =>
    have hpc := processInput_current st inp
    simp only [outerStep] at h
    split at h <;> rename_i heq <;> simp only [heq] at hpc
    · obtain ⟨h1, h2⟩ := ih h
      exact ⟨by rw [h1, hpc], h2⟩
    · obtain ⟨h1, h2⟩ := ih h
      exact ⟨by rw [h1, hpc], h2⟩
    · obtain ⟨h1, h2⟩ := ih h
      exact ⟨by rw [h1, hpc], h2⟩
    · obtain ⟨h1, h2⟩ := (OuterRes.turnDone.injEq .. |>.mp h)
      subst h1
      subst h2
      exact ⟨by simp [flipCurrent, hpc], rfl⟩
    · obtain ⟨h1, h2⟩ := (OuterRes.turnDone.injEq .. |>.mp h)
      subst h1
      subst h2
      exact ⟨by simp [flipCurrent, hpc], rfl⟩
    · obtain ⟨h1, h2⟩ := (OuterRes.turnDone.injEq .. |>.mp h)
      subst h1
      subst h2
      exact ⟨by simp [flipCurrent, hpc], rfl⟩
    · simp at h
    · simp at h
    · simp at h

/-! ## Concrete instances used by the witnesses -/

/-- A concrete keystream instance (any `KS` works in every theorem). -/
def ksZero : KS := fun _ _ => 0

def ivZero : List Nat := List.replicate 16 0

/-- A 10-by-10 all-water board. -/
def waterBoard : Board :=
  ⟨10, List.replicate 10 (List.replicate 10 Cell.water),
    List.replicate 10 (List.replicate 10 Cell.water), []⟩

/-- A 1-by-1 board whose only cell is already resolved as a miss. -/
def missBoard : Board := ⟨1, [[Cell.missc]], [[Cell.missc]], []⟩

def smallWaterBoard : Board := ⟨1, [[Cell.water]], [[Cell.water]], []⟩

/-- Match state in which player 0 is about to re-fire at a resolved cell. -/
def stAlr : GState := ⟨smallWaterBoard, missBoard, 0, 3, 0⟩

def stIdle : GState := ⟨waterBoard, waterBoard, 0, 0, 0⟩

def snapTriv : Snapshot := ⟨waterBoard, waterBoard, 0, 0, 0⟩

/-! ## Out-of-range coordinate crash -/

/-- Both `'Z99'` (parses to row 25, column 98, then `IndexError` inside
`fire_at`) and `' '` (strips to the empty string, then `IndexError` inside
`parse_coordinate`) escape the `except ValueError` handler. -/
theorem processInput_oob (st : GState)
    (h10 : (targetBoard st).hidden.length = 10) :
    processInput st (some ('Z' :: '9' :: '9' :: []))
      = (st, InnerOut.crashed PyErr.indexError) ∧
    processInput st (some (' ' :: []))
      = (st, InnerOut.crashed PyErr.indexError) := by
  constructor
  · simp only [processInput]
    rw [if_neg (by decide), if_neg (by decide)]
    have hfire : (targetBoard st).fire_at 25 98 = none := by
      unfold Board.fire_at
      have hg : pyGet2 (targetBoard st).hidden 25 98 = none := by
        unfold pyGet2
        rw [h10]
        rfl
      rw [hg]
    simp only [show parse_coordinate ('Z' :: '9' :: '9' :: [])
      = Except.ok ((25 : Int), (98 : Int)) from rfl]
    simp only [hfire]
  · simp only [processInput]
    rw [if_neg (by decide), if_neg (by decide)]
    simp only [show parse_coordinate (' ' :: [])
      = Except.error PyErr.indexError from rfl]

/-! ## Claim theorems -/

/-- Claim C1 (code bug): the claim says lobby admission completes without an
uncaught exception and that the username extraction from the value of
`recv_with_checksum` never raises. In the code,
`seq, username = recv_with_checksum(rfile).strip()` calls `.strip()` on the
tuple `(seq, plaintext)` (or on `None`), which raises `AttributeError` on
every connection, well-formed reply or not — so admission never completes. -/
theorem C1_lobby_username_extraction_always_raises :
    ∀ (ks : KS) (stream : List Char),
      lobbyReadUsername ks stream = Except.error PyErr.attributeError := by
  intro ks stream
  unfold lobbyReadUsername
  cases recv_with_checksum ks stream with
  | none => rfl
  | some p =>
    obtain ⟨a, b⟩ := p
    rfl

/-- Claim C2 (confirmed): the turn index flips to the other player exactly
after each turn ending in a miss, a non-winning hit, or an input timeout
(`outerStep … = turnDone` implies the flip), and it stays unchanged on an
`already_shot` result or a coordinate parse failure, where the inner loop
re-prompts the same player (the outer loop recurses with the same
`current`). -/
theorem C2_turn_index_alternation :
    (∀ (st : GState) (inputs : List (Option (List Char))) (st2 : GState)
      (snap : Snapshot), outerStep st inputs = OuterRes.turnDone st2 snap →
      st2.current = 1 - st.current) ∧
    (∀ (st : GState) (inp : Option (List Char)) (st2 : GState),
      processInput st inp = (st2, InnerOut.retryParse) → st2 = st) ∧
    (∀ (st : GState) (inp : Option (List Char)) (st2 : GState),
      processInput st inp = (st2, InnerOut.retryAlready) →
      st2.current = st.current) ∧
    (∀ (st : GState) (inp : Option (List Char))
      (rest : List (Option (List Char))) (st2 : GState) (out : InnerOut),
      processInput st inp = (st2, out) →
      (out = InnerOut.retryParse ∨ out = InnerOut.retryAlready) →
      outerStep st (inp :: rest) = outerStep st2 rest) :=
  ⟨fun _ _ _ _ h => (outerStep_turnDone h).1,
   fun _ _ _ h => processInput_parseErr h,
   fun _ _ _ h => (processInput_already h).1,
   fun _ _ _ _ _ h hout => outerStep_retry h (by tauto)⟩

/-- Witness for C2 at a concrete state: a timeout turn flips player 0 to
player 1. -/
theorem C2_witness :
    outerStep stIdle [none]
      = OuterRes.turnDone ⟨waterBoard, waterBoard, 1, 0, 0⟩
          ⟨waterBoard, waterBoard, 1, 0, 0⟩ ∧
    (⟨waterBoard, waterBoard, 1, 0, 0⟩ : GState).current = 1 - stIdle.current :=
  ⟨by decide,
   C2_turn_index_alternation.1 stIdle [none] ⟨waterBoard, waterBoard, 1, 0, 0⟩
     ⟨waterBoard, waterBoard, 1, 0, 0⟩ (by decide)⟩

set_option maxRecDepth 8192 in
/-- Claim C3 (corrected) — counterexample to the claim as stated: on the
concrete frame with sequence number 7 and plaintext bytes "hi", the first
checksum character is the digit '1'; replacing it with the DIFFERENT
character '١' (Arabic-Indic digit one, U+0661) still decodes to the
original tuple, because Python int() maps every Unicode decimal digit to
its value, so the substituted field parses to the same number and the CRC
comparison passes. Hence "changing any single character of the checksum
field to a different character makes recv_with_checksum return None" is
false of the program. -/
theorem C3_counterexample :
    ('١' : Char) ≠ '1' ∧
    (natToDec (crc32Masked (strBytes
      (natToDec 7 ++ '|' :: encrypt_message ksZero ivZero [104, 105]))))[0]?
      = some '1' ∧
    recv_with_checksum ksZero
      (client_frame_tampered ksZero ivZero 7 [104, 105] 0 '١' ++ ['\n'])
      = some ((7 : Int), [104, 105]) := by
  decide

/-- Claim C3 (amended): decoding an untampered client frame returns exactly
the sequence number and the plaintext (round-trip law); and changing any
single character of the checksum field to a character whose int() digit
value differs from the replaced digit's value — any non-digit character,
or any decimal digit of a different value — makes recv_with_checksum
return None. (The remaining substitutes, equal-valued Unicode digits, are
accepted: see the counterexample.) -/
theorem C3_roundtrip_and_value_tamper :
    (∀ (ks : KS) (iv msg : List Nat) (n : Nat),
      iv.length = 16 → (∀ b ∈ iv, b < 256) → (∀ b ∈ msg, b < 256) →
      recv_with_checksum ks (client_frame ks iv n msg ++ ['\n'])
        = some ((n : Int), msg)) ∧
    (∀ (ks : KS) (iv msg : List Nat) (n i : Nat) (c : Char),
      iv.length = 16 → (∀ b ∈ iv, b < 256) → (∀ b ∈ msg, b < 256) →
      i < (natToDec (crc32Masked (strBytes
        (natToDec n ++ '|' :: encrypt_message ks iv msg)))).length →
      uniDigitVal c.toNat ≠ some
        (((natToDec (crc32Masked (strBytes
          (natToDec n ++ '|' :: encrypt_message ks iv msg)))).getD i '0').toNat
          - 48) →
      recv_with_checksum ks (client_frame_tampered ks iv n msg i c ++ ['\n'])
        = none) :=
  ⟨fun ks iv msg n h1 h2 h3 => client_roundtrip ks iv msg n h1 h2 h3,
   fun ks iv msg n i c h1 h2 h3 h4 h5 =>
     tamper_D ks iv msg n i c h1 h2 h3 _ (crc32Masked_strBytes _) h4 h5⟩

set_option maxRecDepth 8192 in
/-- Witness for C3 at a concrete frame (`n = 7`, plaintext bytes "hi",
zero keystream and IV): decode succeeds, and corrupting the first checksum
digit to the non-digit `'X'` is rejected. -/
theorem C3_witness :
    recv_with_checksum ksZero (client_frame ksZero ivZero 7 [104, 105] ++ ['\n'])
      = some ((7 : Int), [104, 105]) ∧
    recv_with_checksum ksZero
      (client_frame_tampered ksZero ivZero 7 [104, 105] 0 'X' ++ ['\n']) = none :=
  ⟨C3_roundtrip_and_value_tamper.1 ksZero ivZero [104, 105] 7
     (by decide) (by decide) (by decide),
   C3_roundtrip_and_value_tamper.2 ksZero ivZero [104, 105] 7 0 'X'
     (by decide) (by decide) (by decide) (by decide) (by decide)⟩

/-- Claim C4 (corrected) — counterexample: with a reconnect observed at the
very first poll (well inside the 60-second window) the handler resumes over
the ORIGINAL streams and the opponent STILL receives the default-win
message afterwards, so "default-win iff the grace window expires without
reattachment" is false, as is the substitution of the fresh connection's
streams. -/
theorem C4_counterexample :
    handleDisconnectExcept true (some 0) (some snapTriv)
      = [DEvent.resumeRun StreamEnd.oldP1 StreamEnd.oldP2 (some snapTriv),
         DEvent.defaultWinToOpponent] ∧
    DEvent.defaultWinToOpponent ∈ handleDisconnectExcept true (some 0) (some snapTriv) := by
  decide

/-- Claim C4 (amended): on reattachment within the 60-check window the
handler reruns the game from the stored snapshot (so the resumed state
equals the last saved snapshot, per `gameInit`) but over the ORIGINAL
streams, and then the opponent receives the default-win message
unconditionally; the per-identity bookkeeping is discarded exactly when no
resume happened. -/
theorem C4_reconnect_amended :
    (∀ (p1d : Bool) (t : Nat) (snap : Option Snapshot), t < 60 →
      handleDisconnectExcept p1d (some t) snap
        = [DEvent.resumeRun (if p1d then StreamEnd.oldP1 else StreamEnd.oldP2)
            (if p1d then StreamEnd.oldP2 else StreamEnd.oldP1) snap,
           DEvent.defaultWinToOpponent]) ∧
    (∀ (p1d : Bool) (rAt : Option Nat) (snap : Option Snapshot),
      DEvent.defaultWinToOpponent ∈ handleDisconnectExcept p1d rAt snap) ∧
    (∀ (p1d : Bool) (rAt : Option Nat) (snap : Option Snapshot),
      DEvent.discardBookkeeping ∈ handleDisconnectExcept p1d rAt snap ↔
        ¬ ∃ t, rAt = some t ∧ t < 60) ∧
    (∀ (s : Snapshot) (f1 f2 : Board),
      gameInit (some s) f1 f2 = ⟨s.sb1, s.sb2, s.sturn, s.sm1, s.sm2⟩) := by
  refine ⟨?_, ?_, ?_, fun s f1 f2 => rfl⟩
  · intro p1d t snap ht
    simp only [handleDisconnectExcept]
    rw [if_pos ht]
    cases p1d <;> rfl
  · intro p1d rAt snap
    cases rAt with
    | none => simp [handleDisconnectExcept]
    | some t =>
      simp only [handleDisconnectExcept]
      by_cases ht : t < 60
      · rw [if_pos ht]
        cases p1d <;> simp
      · rw [if_neg ht]
        simp
  · intro p1d rAt snap
    cases rAt with
    | none => simp [handleDisconnectExcept]
    | some t =>
      simp only [handleDisconnectExcept]
      by_cases ht : t < 60
      · rw [if_pos ht]
        cases p1d <;> simp <;> omega
      · rw [if_neg ht]
        simp
        omega

/-- Witness for C4's amended theorem at concrete inputs. -/
theorem C4_witness :
    handleDisconnectExcept true (some 5) (some snapTriv)
      = [DEvent.resumeRun StreamEnd.oldP1 StreamEnd.oldP2 (some snapTriv),
         DEvent.defaultWinToOpponent] ∧
    DEvent.defaultWinToOpponent ∈ handleDisconnectExcept false none none ∧
    gameInit (some snapTriv) missBoard missBoard
      = ⟨snapTriv.sb1, snapTriv.sb2, snapTriv.sturn, snapTriv.sm1, snapTriv.sm2⟩ :=
  ⟨by
    have h := C4_reconnect_amended.1 true 5 (some snapTriv) (by decide)
    simpa using h,
   C4_reconnect_amended.2.1 false none none,
   C4_reconnect_amended.2.2.2 snapTriv missBoard missBoard⟩

/-- Claim C5 (corrected) — counterexample: firing again at the already
resolved cell `A1` yields `already_shot` and yet the acting player's move
counter DOES change (`moves[current] += 1` runs before the result is
inspected), contradicting "changes neither the turn index nor the acting
player's move counter". -/
theorem C5_counterexample :
    (processInput stAlr (some ('A' :: '1' :: []))).2 = InnerOut.retryAlready ∧
    stAlr.m1 = 3 ∧
    (processInput stAlr (some ('A' :: '1' :: []))).1.m1 = 4 := by
  decide

/-- Claim C5 (amended): `fire_at` on a resolved cell returns
`('already_shot', None)` and leaves the board (both grids and the ship
list) unchanged; in the game loop an `already_shot` shot leaves the turn
index and both boards unchanged but increments the acting player's move
counter by one before the re-prompt. -/
theorem C5_already_shot_amended :
    (∀ (b : Board) (row col : Int) (cell : Cell),
      pyGet2 b.hidden row col = some cell →
      (cell = Cell.hitc ∨ cell = Cell.missc) →
      b.fire_at row col = some (FireRes.alreadyR, none, b)) ∧
    (∀ (st : GState) (inp : Option (List Char)) (st2 : GState),
      processInput st inp = (st2, InnerOut.retryAlready) →
      st2.current = st.current ∧ st2.board1 = st.board1 ∧
        st2.board2 = st.board2 ∧
        (if st.current = 0 then st2.m1 = st.m1 + 1 ∧ st2.m2 = st.m2
         else st2.m2 = st.m2 + 1 ∧ st2.m1 = st.m1)) :=
  ⟨fun _ _ _ _ hg hc => fire_at_resolved hg hc,
   fun _ _ _ h => processInput_already h⟩

/-- Witness for C5's amended theorem at the concrete resolved cell. -/
theorem C5_witness :
    missBoard.fire_at 0 0 = some (FireRes.alreadyR, none, missBoard) ∧
    ((processInput stAlr (some ('A' :: '1' :: []))).1.current = stAlr.current ∧
      (processInput stAlr (some ('A' :: '1' :: []))).1.m1 = stAlr.m1 + 1) :=
  ⟨C5_already_shot_amended.1 missBoard 0 0 Cell.missc (by decide) (by decide),
   by
    have h := C5_already_shot_amended.2 stAlr (some ('A' :: '1' :: []))
      (processInput stAlr (some ('A' :: '1' :: []))).1 (by decide)
    exact ⟨h.1, by
      have h4 := h.2.2.2
      rw [if_pos (by decide : stAlr.current = 0)] at h4
      exact h4.1⟩⟩

/-- Claim C6 (code bug): the claim says every non-grammar input line is
answered with a parse error to the acting player only, without flipping the
turn and without abnormal termination — including `'Z99'` and whitespace
inputs. In the code `parse_coordinate` does no range validation: `'Z99'`
parses to row 25, col 98 and `fire_at` raises `IndexError`; `' '` strips to
the empty string and `coord_str[0]` raises `IndexError`. Neither is caught
by the `except ValueError` handler, so the match worker terminates
abnormally. -/
theorem C6_unvalidated_coordinate_crashes :
    ∀ (st : GState), (targetBoard st).hidden.length = 10 →
      processInput st (some ('Z' :: '9' :: '9' :: []))
        = (st, InnerOut.crashed PyErr.indexError) ∧
      processInput st (some (' ' :: []))
        = (st, InnerOut.crashed PyErr.indexError) :=
  fun st h10 => processInput_oob st h10

/-- Witness for C6 on a concrete 10-by-10 board. -/
theorem C6_witness :
    processInput stIdle (some ('Z' :: '9' :: '9' :: []))
      = (stIdle, InnerOut.crashed PyErr.indexError) ∧
    processInput stIdle (some (' ' :: []))
      = (stIdle, InnerOut.crashed PyErr.indexError) :=
  C6_unvalidated_coordinate_crashes stIdle (by decide)

/-- Claim C7 (code bug): the claim says both endpoints emit three-field
`SEQ|TOKEN|CHECKSUM` frames. The client does (three fields, checksum over
`SEQ|TOKEN`), but the server's `send_with_checksum` emits only
`TOKEN|CHECKSUM` — two fields, no sequence number, checksum over the token
alone. -/
theorem C7_server_frame_lacks_sequence_field :
    ∀ (ks : KS) (iv msg : List Nat),
      (∀ b ∈ iv, b < 256) → (∀ b ∈ msg, b < 256) →
      (splitAllList '|' (send_with_checksum ks iv msg)).length = 2 ∧
      ∀ (n : Nat), (splitAllList '|' (client_frame ks iv n msg)).length = 3 := by
  intro ks iv msg hivB hmB
  have htok : '|' ∉ encrypt_message ks iv msg :=
    fun hm => (tok_char_facts (encBytes_lt hivB hmB) _ hm).1 rfl
  constructor
  · unfold send_with_checksum
    rw [splitAll_append htok, splitAll_no_sep (natToDec_no_bar _)]
    rfl
  · intro n
    unfold client_frame
    rw [show ((natToDec n ++ '|' :: encrypt_message ks iv msg) ++
        '|' :: natToDec (crc32Masked (strBytes
          (natToDec n ++ '|' :: encrypt_message ks iv msg))))
      = natToDec n ++ '|' :: (encrypt_message ks iv msg ++
        '|' :: natToDec (crc32Masked (strBytes
          (natToDec n ++ '|' :: encrypt_message ks iv msg)))) from by simp]
    rw [splitAll_append (natToDec_no_bar n), splitAll_append htok,
      splitAll_no_sep (natToDec_no_bar _)]
    rfl

set_option maxRecDepth 8192 in
/-- Witness for C7 at a concrete message. -/
theorem C7_witness :
    (splitAllList '|' (send_with_checksum ksZero ivZero [104, 105])).length = 2 ∧
    (splitAllList '|' (client_frame ksZero ivZero 7 [104, 105])).length = 3 :=
  ⟨(C7_server_frame_lacks_sequence_field ksZero ivZero [104, 105]
      (by decide) (by decide)).1,
   (C7_server_frame_lacks_sequence_field ksZero ivZero [104, 105]
      (by decide) (by decide)).2 7⟩

/-- Claim C8 (code bug): the claim says a username equal to a
still-connected active player's name is rejected regardless of whether some
other, unrelated player is disconnected inside its grace window. The code's
check requires ALL active players to be `still_active`, so the moment any
unrelated player is disconnected, a duplicate of a still-connected player
is admitted: with `active = {alice: connected, bob: disconnected}` the
request for `alice` is NOT rejected, though it is when everyone is
connected. -/
theorem C8_duplicate_check_defeated_by_unrelated_disconnect :
    admissionRejected []
      [(['a', 'l', 'i', 'c', 'e'], true), (['b', 'o', 'b'], false)]
      ['a', 'l', 'i', 'c', 'e'] = false ∧
    admissionRejected []
      [(['a', 'l', 'i', 'c', 'e'], true), (['b', 'o', 'b'], true)]
      ['a', 'l', 'i', 'c', 'e'] = true := by
  decide

/-- Claim C9 (confirmed): every non-terminating turn hands the save
callback exactly one snapshot, equal to the post-mutation state with the
turn index already flipped to the next player (the snapshot is produced
after the turn's board mutation and before the next outer iteration
prompts); terminating turns (quit, winning hit) and crashes save nothing. -/
theorem C9_snapshot_per_nonterminal_turn :
    (∀ (st : GState) (inputs : List (Option (List Char))) (st2 : GState)
      (snap : Snapshot), outerStep st inputs = OuterRes.turnDone st2 snap →
      snap = snapshotOf st2 ∧ snap.sturn = 1 - st.current ∧
        savesOf (OuterRes.turnDone st2 snap) = [snap]) ∧
    (∀ (k : EndKind) (st2 : GState), savesOf (OuterRes.ended k st2) = []) ∧
    (∀ (e : PyErr) (st2 : GState), savesOf (OuterRes.crashedGame e st2) = []) :=
  ⟨fun _ _ _ _ h => by
    obtain ⟨h1, h2⟩ := outerStep_turnDone h
    refine ⟨h2, ?_, rfl⟩
    rw [h2]
    exact h1,
   fun _ _ => rfl, fun _ _ => rfl⟩

/-- Witness for C9 at a concrete miss turn. -/
theorem C9_witness :
    outerStep stAlr [some ('A' :: '1' :: []), none]
      = OuterRes.turnDone ⟨smallWaterBoard, missBoard, 1, 4, 0⟩
          ⟨smallWaterBoard, missBoard, 1, 4, 0⟩ ∧
    (⟨smallWaterBoard, missBoard, 1, 4, 0⟩ : Snapshot)
      = snapshotOf ⟨smallWaterBoard, missBoard, 1, 4, 0⟩ ∧
    (⟨smallWaterBoard, missBoard, 1, 4, 0⟩ : Snapshot).sturn = 1 - stAlr.current :=
  ⟨by decide,
   (C9_snapshot_per_nonterminal_turn.1 stAlr [some ('A' :: '1' :: []), none]
      ⟨smallWaterBoard, missBoard, 1, 4, 0⟩
      ⟨smallWaterBoard, missBoard, 1, 4, 0⟩ (by decide)).1,
   (C9_snapshot_per_nonterminal_turn.1 stAlr [some ('A' :: '1' :: []), none]
      ⟨smallWaterBoard, missBoard, 1, 4, 0⟩
      ⟨smallWaterBoard, missBoard, 1, 4, 0⟩ (by decide)).2.1⟩

/-- Claim C10 (confirmed): every character of an `encrypt_message` token is
a base64 character or padding, hence never the `'|'` delimiter nor a
newline; consequently one `rsplit('|', 1)` recovers exactly the checksum
field of a well-formed client frame and one `split('|', 1)` then recovers
exactly the sequence and token fields, for any payload. -/
theorem C10_token_delimiter_free_and_parse_unambiguous :
    (∀ (ks : KS) (iv msg : List Nat),
      (∀ b ∈ iv, b < 256) → (∀ b ∈ msg, b < 256) →
      ∀ c ∈ encrypt_message ks iv msg, c ≠ '|' ∧ c ≠ '\n') ∧
    (∀ (ks : KS) (iv msg : List Nat) (n : Nat),
      (∀ b ∈ iv, b < 256) → (∀ b ∈ msg, b < 256) →
      rsplitOnceList '|' (client_frame ks iv n msg)
        = some (natToDec n ++ '|' :: encrypt_message ks iv msg,
            natToDec (crc32Masked (strBytes
              (natToDec n ++ '|' :: encrypt_message ks iv msg)))) ∧
      splitOnceList '|' (natToDec n ++ '|' :: encrypt_message ks iv msg)
        = some (natToDec n, encrypt_message ks iv msg)) :=
  ⟨fun ks iv msg hivB hmB c hc =>
    ⟨(tok_char_facts (encBytes_lt hivB hmB) c hc).1,
     (tok_char_facts (encBytes_lt hivB hmB) c hc).2.1⟩,
   fun ks iv msg n hivB hmB =>
    ⟨rsplitOnce_append (natToDec_no_bar _),
     splitOnce_append (natToDec_no_bar n)⟩⟩

set_option maxRecDepth 8192 in
/-- Witness for C10 at a concrete frame. -/
theorem C10_witness :
    (∀ c ∈ encrypt_message ksZero ivZero [104, 105], c ≠ '|' ∧ c ≠ '\n') ∧
    rsplitOnceList '|' (client_frame ksZero ivZero 7 [104, 105])
      = some (natToDec 7 ++ '|' :: encrypt_message ksZero ivZero [104, 105],
          natToDec (crc32Masked (strBytes
            (natToDec 7 ++ '|' :: encrypt_message ksZero ivZero [104, 105])))) :=
  ⟨C10_token_delimiter_free_and_parse_unambiguous.1 ksZero ivZero [104, 105]
     (by decide) (by decide),
   (C10_token_delimiter_free_and_parse_unambiguous.2 ksZero ivZero [104, 105] 7
     (by decide) (by decide)).1⟩

end Battleships
